import Mathlib

/-
Formal model of the record reconciliation engine implemented in
src/ultimate.py (the latest revision of the engine; sample.py,
v2_script.py and update_update.py are earlier revisions of the same code).

The model is a shallow embedding: Python values are the inductive type
PyVal, Python dict equality is the Boolean relation pyEq, json.dumps and
json.loads are the executable functions dumps and loads below, and the
methods of DataInserter are translated one to one into Lean functions.
The storage collaborator (src.database.insightsdb) is not part of the
repository sources; where its behaviour matters it is modelled from the
specification (section 6 of spec.md), and the corresponding definitions
carry a doc comment saying so.

Model restrictions, stated once here: Python float values are not
modelled (JSON numbers are integers); non-ASCII characters are emitted
verbatim by dumps instead of the \uXXXX escapes Python produces.
-/

/-- Characters that are awkward to write literally are named once. -/
def cQuote : Char := Char.ofNat 34

def cSquote : Char := Char.ofNat 39

def cBackslash : Char := Char.ofNat 92

def cLbrace : Char := Char.ofNat 123

def cRbrace : Char := Char.ofNat 125

def cLbrack : Char := Char.ofNat 91

def cRbrack : Char := Char.ofNat 93

def cNewlineChar : Char := Char.ofNat 10

/-- A Python value as it occurs in the records handled by the engine:
None, bool, int, str, list and dict (insertion ordered key-value list). -/
inductive PyVal : Type where
  | none : PyVal
  | bool : Bool → PyVal
  | int : Int → PyVal
  | str : String → PyVal
  | list : List PyVal → PyVal
  | dict : List (String × PyVal) → PyVal

/-- First value bound to key k in an association list (Python dict lookup:
keys are unique in a dict built by Python, so first match is the match). -/
def lookupPairs (kvs : List (String × PyVal)) (k : String) : Option PyVal :=
  (kvs.find? (fun kv => kv.1 == k)).map Prod.snd

mutual

/-- Reference form of Python equality (==) on PyVal, by well-founded
recursion: dictionaries compare as finite maps, independent of key
order; lists compare pointwise; scalars by value.  The executable form
the engine runs is pyEq below, proved equal to this one. -/
def pyEqW : PyVal → PyVal → Bool
  | .none, .none => true
  | .bool a, .bool b => a == b
  | .int a, .int b => a == b
  | .str a, .str b => a == b
  | .list a, .list b => pyEqListW a b
  | .dict a, .dict b => a.length == b.length && pyEqSubW a b
  | _, _ => false
  termination_by a b => sizeOf a + sizeOf b
  decreasing_by all_goals (simp_wf; try omega)

/-- Pointwise Python equality of two lists. -/
def pyEqListW : List PyVal → List PyVal → Bool
  | [], [] => true
  | a :: as_, b :: bs => pyEqW a b && pyEqListW as_ bs
  | _, _ => false
  termination_by a b => sizeOf a + sizeOf b
  decreasing_by all_goals (simp_wf; try omega)

/-- Every key of the first dict is bound in the second to an equal value. -/
def pyEqSubW : List (String × PyVal) → List (String × PyVal) → Bool
  | [], _ => true
  | (k, v) :: rest, ys => pyFindEqW k v ys && pyEqSubW rest ys
  termination_by a b => sizeOf a + sizeOf b
  decreasing_by all_goals (simp_wf; try omega)

/-- The first binding of key k in ys has a value Python-equal to v. -/
def pyFindEqW : String → PyVal → List (String × PyVal) → Bool
  | _, _, [] => false
  | k, v, (k2, v2) :: rest => if k2 == k then pyEqW v v2 else pyFindEqW k v rest
  termination_by _ v b => sizeOf v + sizeOf b
  decreasing_by all_goals (simp_wf; try omega)

end

mutual

/-- Node count of a value (computable size used to pick fuel). -/
def pySize : PyVal → Nat
  | .list xs => pySizeList xs + 1
  | .dict kvs => pySizePairs kvs + 1
  | _ => 1

/-- Node count of the elements of a list value. -/
def pySizeList : List PyVal → Nat
  | [] => 1
  | v :: vs => pySize v + pySizeList vs + 1

/-- Node count of the values of a dict. -/
def pySizePairs : List (String × PyVal) → Nat
  | [] => 1
  | (_, v) :: rest => pySize v + pySizePairs rest + 1

end

mutual

/-- Fuel-bounded form of pyEqW, structurally recursive on the fuel so
that closed comparisons evaluate inside the kernel. -/
def pyEqF : Nat → PyVal → PyVal → Bool
  | 0, _, _ => false
  | fuel + 1, a, b =>
    match a, b with
    | .none, .none => true
    | .bool x, .bool y => x == y
    | .int x, .int y => x == y
    | .str x, .str y => x == y
    | .list xs, .list ys => pyEqListF fuel xs ys
    | .dict xs, .dict ys => xs.length == ys.length && pyEqSubF fuel xs ys
    | _, _ => false

/-- Fuel-bounded pointwise list comparison. -/
def pyEqListF : Nat → List PyVal → List PyVal → Bool
  | 0, _, _ => false
  | fuel + 1, a, b =>
    match a, b with
    | [], [] => true
    | x :: xs, y :: ys => pyEqF fuel x y && pyEqListF fuel xs ys
    | _, _ => false

/-- Fuel-bounded key-wise inclusion of dict entries. -/
def pyEqSubF : Nat → List (String × PyVal) → List (String × PyVal) → Bool
  | 0, _, _ => false
  | fuel + 1, a, ys =>
    match a with
    | [] => true
    | (k, v) :: rest => pyFindEqF fuel k v ys && pyEqSubF fuel rest ys

/-- Fuel-bounded first-binding comparison. -/
def pyFindEqF : Nat → String → PyVal → List (String × PyVal) → Bool
  | 0, _, _, _ => false
  | fuel + 1, k, v, ys =>
    match ys with
    | [] => false
    | (k2, v2) :: rest => if k2 == k then pyEqF fuel v v2 else pyFindEqF fuel k v rest

end

/-- Python equality (==) on PyVal as the engine evaluates it: the
fuel-bounded comparison run with provably sufficient fuel (the adequacy
theorem below shows it equals the reference pyEqW). -/
def pyEq (a b : PyVal) : Bool := pyEqF (pySize a + pySize b) a b

theorem pySize_pos (v : PyVal) : 1 ≤ pySize v := by
  cases v <;> simp [pySize]

theorem pySizeList_pos (xs : List PyVal) : 1 ≤ pySizeList xs := by
  cases xs <;> simp [pySizeList]

theorem pySizePairs_pos (xs : List (String × PyVal)) : 1 ≤ pySizePairs xs := by
  cases xs with
  | nil => simp [pySizePairs]
  | cons kv rest =>
    obtain ⟨k, v⟩ := kv
    simp [pySizePairs]

/-- The fuel-bounded comparison agrees with the reference comparison
whenever the fuel covers the combined node count. -/
theorem pyEqF_adequate : ∀ fuel : Nat,
    (∀ a b, pySize a + pySize b ≤ fuel → pyEqF fuel a b = pyEqW a b) ∧
    (∀ xs ys, pySizeList xs + pySizeList ys ≤ fuel →
      pyEqListF fuel xs ys = pyEqListW xs ys) ∧
    (∀ xs ys, pySizePairs xs + pySizePairs ys ≤ fuel →
      pyEqSubF fuel xs ys = pyEqSubW xs ys) ∧
    (∀ k v ys, pySize v + pySizePairs ys ≤ fuel →
      pyFindEqF fuel k v ys = pyFindEqW k v ys) := by
  intro fuel
  induction fuel with
  | zero =>
    refine ⟨fun a b h => ?_, fun xs ys h => ?_, fun xs ys h => ?_, fun k v ys h => ?_⟩
    · have := pySize_pos a
      omega
    · have := pySizeList_pos xs
      omega
    · have := pySizePairs_pos xs
      omega
    · have := pySize_pos v
      omega
  | succ fuel ih =>
    obtain ⟨ih1, ih2, ih3, ih4⟩ := ih
    refine ⟨fun a b h => ?_, fun xs ys h => ?_, fun xs ys h => ?_, fun k v ys h => ?_⟩
    · cases a <;> cases b <;> simp only [pyEqF, pyEqW]
      case list.list xs ys =>
        simp only [pySize] at h
        exact ih2 xs ys (by omega)
      case dict.dict xs ys =>
        simp only [pySize] at h
        rw [ih3 xs ys (by omega)]
    · cases xs with
      | nil => cases ys <;> simp only [pyEqListF, pyEqListW]
      | cons x xs2 =>
        cases ys with
        | nil => simp only [pyEqListF, pyEqListW]
        | cons y ys2 =>
          simp only [pyEqListF, pyEqListW, pySizeList] at h ⊢
          have hx := pySizeList_pos xs2
          have hy := pySizeList_pos ys2
          have hpx := pySize_pos x
          have hpy := pySize_pos y
          rw [ih1 x y (by omega), ih2 xs2 ys2 (by omega)]
    · cases xs with
      | nil => simp only [pyEqSubF, pyEqSubW]
      | cons kv rest =>
        obtain ⟨k, v⟩ := kv
        simp only [pyEqSubF, pyEqSubW, pySizePairs] at h ⊢
        have h1 := pySize_pos v
        have h2 := pySizePairs_pos rest
        have h3 := pySizePairs_pos ys
        rw [ih4 k v ys (by omega), ih3 rest ys (by omega)]
    · cases ys with
      | nil => simp only [pyFindEqF, pyFindEqW]
      | cons kv rest =>
        obtain ⟨k2, v2⟩ := kv
        simp only [pyFindEqF, pyFindEqW, pySizePairs] at h ⊢
        have h1 := pySize_pos v2
        have h2 := pySizePairs_pos rest
        by_cases hk : (k2 == k) = true
        · simp only [hk, if_true]
          exact ih1 v v2 (by omega)
        · simp only [Bool.not_eq_true] at hk
          simp only [hk, Bool.false_eq_true, if_false]
          exact ih4 k v rest (by omega)

/-- The executable equality equals the reference equality. -/
theorem pyEq_eq_pyEqW (a b : PyVal) : pyEq a b = pyEqW a b :=
  (pyEqF_adequate (pySize a + pySize b)).1 a b le_rfl

/-- Fuel-bounded decimal digit expansion, most significant first. -/
def natDigitsF : Nat → Nat → List Char
  | 0, _ => []
  | fuel + 1, n =>
    if n < 10 then [Char.ofNat (48 + n)]
    else natDigitsF fuel (n / 10) ++ [Char.ofNat (48 + n % 10)]

/-- Decimal digits of a natural number, most significant first (run
with provably sufficient fuel: the digit count is at most n). -/
def natDigits (n : Nat) : List Char := natDigitsF (n + 1) n

/-- Decimal text of an integer, as json.dumps and str print it. -/
def intChars (n : Int) : List Char :=
  if n < 0 then Char.ofNat 45 :: natDigits n.natAbs else natDigits n.toNat

/-- The escape json.dumps applies to one character inside a string
(quote, backslash and the common control characters; other characters
are emitted verbatim, see the model restrictions above). -/
def escChar (c : Char) : List Char :=
  if c = cQuote then [cBackslash, cQuote]
  else if c = cBackslash then [cBackslash, cBackslash]
  else if c = Char.ofNat 10 then [cBackslash, Char.ofNat 110]
  else if c = Char.ofNat 9 then [cBackslash, Char.ofNat 116]
  else if c = Char.ofNat 13 then [cBackslash, Char.ofNat 114]
  else if c = Char.ofNat 8 then [cBackslash, Char.ofNat 98]
  else if c = Char.ofNat 12 then [cBackslash, Char.ofNat 102]
  else [c]

/-- Escaped body of a JSON string literal. -/
def escString (cs : List Char) : List Char := cs.flatMap escChar

/-- Join character chunks with a separator, as a comma join in dumps. -/
def joinSep (sep : List Char) : List (List Char) → List Char
  | [] => []
  | [x] => x
  | x :: xs => x ++ sep ++ joinSep sep xs

mutual

/-- json.dumps with the default separators, at the character level. -/
def dumpsChars : PyVal → List Char
  | .none => [Char.ofNat 110, Char.ofNat 117, Char.ofNat 108, Char.ofNat 108]
  | .bool true => [Char.ofNat 116, Char.ofNat 114, Char.ofNat 117, Char.ofNat 101]
  | .bool false =>
      [Char.ofNat 102, Char.ofNat 97, Char.ofNat 108, Char.ofNat 115, Char.ofNat 101]
  | .int n => intChars n
  | .str s => cQuote :: escString s.data ++ [cQuote]
  | .list xs => cLbrack :: joinSep [Char.ofNat 44, Char.ofNat 32] (dumpsItems xs) ++ [cRbrack]
  | .dict kvs =>
      cLbrace :: joinSep [Char.ofNat 44, Char.ofNat 32] (dumpsMembers kvs) ++ [cRbrace]

/-- The dumped elements of a JSON array. -/
def dumpsItems : List PyVal → List (List Char)
  | [] => []
  | v :: vs => dumpsChars v :: dumpsItems vs

/-- The dumped members of a JSON object, each as key-colon-space-value. -/
def dumpsMembers : List (String × PyVal) → List (List Char)
  | [] => []
  | kv :: kvs =>
      (cQuote :: escString kv.1.data ++ [cQuote, Char.ofNat 58, Char.ofNat 32]
        ++ dumpsChars kv.2) :: dumpsMembers kvs

end

/-- json.dumps as a String function. -/
def dumps (v : PyVal) : String := String.mk (dumpsChars v)

/-- JSON whitespace accepted by the Python json parser between tokens. -/
def isJsonWs (c : Char) : Bool :=
  c = Char.ofNat 32 || c = Char.ofNat 9 || c = Char.ofNat 10 || c = Char.ofNat 13

/-- Drop leading JSON whitespace. -/
def skipWs (cs : List Char) : List Char := cs.dropWhile isJsonWs

/-- If lit is a leading run of cs, the remainder of cs after it. -/
def chopLead : List Char → List Char → Option (List Char)
  | [], cs => some cs
  | _ :: _, [] => Option.none
  | l :: ls, c :: cs => if c = l then chopLead ls cs else Option.none

/-- Decode one escape character of a JSON string literal (the \uXXXX
form is outside the model, see the header comment). -/
def unescChar (c : Char) : Option Char :=
  if c = cQuote then some cQuote
  else if c = cBackslash then some cBackslash
  else if c = Char.ofNat 47 then some (Char.ofNat 47)
  else if c = Char.ofNat 110 then some (Char.ofNat 10)
  else if c = Char.ofNat 116 then some (Char.ofNat 9)
  else if c = Char.ofNat 114 then some (Char.ofNat 13)
  else if c = Char.ofNat 98 then some (Char.ofNat 8)
  else if c = Char.ofNat 102 then some (Char.ofNat 12)
  else Option.none

/-- Body of a JSON string literal after the opening quote: the decoded
characters and the input following the closing quote.  Unescaped control
characters are rejected, as the strict Python parser rejects them. -/
def parseStrBody : List Char → Option (List Char × List Char)
  | [] => Option.none
  | c :: rest =>
    if c = cQuote then some ([], rest)
    else if c = cBackslash then
      match rest with
      | [] => Option.none
      | e :: rest2 =>
        match unescChar e with
        | some u => (parseStrBody rest2).map (fun p => (u :: p.1, p.2))
        | Option.none => Option.none
    else if c.toNat < 32 then Option.none
    else (parseStrBody rest).map (fun p => (c :: p.1, p.2))

/-- Is c a decimal digit. -/
def isDigitChar (c : Char) : Bool := 48 ≤ c.toNat && c.toNat ≤ 57

/-- Numeric value of a run of decimal digits. -/
def digitsVal (ds : List Char) : Nat := ds.foldl (fun a c => a * 10 + (c.toNat - 48)) 0

/-- A JSON integer literal at the head of the input: optional minus,
digits with no redundant leading zero; a following fraction or exponent
is rejected (floats are outside the model, see the header comment). -/
def parseNum (cs : List Char) : Option (PyVal × List Char) :=
  let (neg, cs1) :=
    match cs with
    | c :: rest => if c = Char.ofNat 45 then (true, rest) else (false, cs)
    | [] => (false, cs)
  match cs1 with
  | [] => Option.none
  | d :: _ =>
    if isDigitChar d then
      let ds := cs1.takeWhile isDigitChar
      let rest := cs1.dropWhile isDigitChar
      if d = Char.ofNat 48 && ds.length != 1 then Option.none
      else
        match rest with
        | r :: _ =>
          if r = Char.ofNat 46 || r = Char.ofNat 101 || r = Char.ofNat 69 then Option.none
          else some (.int (if neg then -(digitsVal ds : Int) else (digitsVal ds : Int)), rest)
        | [] => some (.int (if neg then -(digitsVal ds : Int) else (digitsVal ds : Int)), rest)
    else Option.none

/-- Insert into a Python dict under construction: an existing key keeps
its position and gets the new value, a new key is appended.  This is the
semantics both of a dict display and of the json object builder. -/
def pyDictInsert (kvs : List (String × PyVal)) (k : String) (v : PyVal) :
    List (String × PyVal) :=
  if kvs.any (fun kv => kv.1 == k) then
    kvs.map (fun kv => if kv.1 == k then (kv.1, v) else kv)
  else kvs ++ [(k, v)]

mutual

/-- One JSON value at the head of the input (fuelled recursion; the fuel
only bounds nesting and is chosen large enough by loads). -/
def parseVal : Nat → List Char → Option (PyVal × List Char)
  | 0, _ => Option.none
  | fuel + 1, cs =>
    let cs := skipWs cs
    match chopLead [Char.ofNat 110, Char.ofNat 117, Char.ofNat 108, Char.ofNat 108] cs with
    | some rest => some (.none, rest)
    | Option.none =>
    match chopLead [Char.ofNat 116, Char.ofNat 114, Char.ofNat 117, Char.ofNat 101] cs with
    | some rest => some (.bool true, rest)
    | Option.none =>
    match chopLead
        [Char.ofNat 102, Char.ofNat 97, Char.ofNat 108, Char.ofNat 115, Char.ofNat 101] cs with
    | some rest => some (.bool false, rest)
    | Option.none =>
    match cs with
    | [] => Option.none
    | c :: rest =>
      if c = cQuote then (parseStrBody rest).map (fun p => (.str (String.mk p.1), p.2))
      else if c = cLbrace then
        match skipWs rest with
        | c2 :: rest2 =>
          if c2 = cRbrace then some (.dict [], rest2)
          else parseObjItems fuel (c2 :: rest2) []
        | [] => Option.none
      else if c = cLbrack then
        match skipWs rest with
        | c2 :: rest2 =>
          if c2 = cRbrack then some (.list [], rest2)
          else parseArrItems fuel (c2 :: rest2) []
        | [] => Option.none
      else parseNum cs

/-- Members of a JSON object after the opening brace, at least one
member present; acc holds the members already built. -/
def parseObjItems : Nat → List Char → List (String × PyVal) →
    Option (PyVal × List Char)
  | 0, _, _ => Option.none
  | fuel + 1, cs, acc =>
    match cs with
    | c :: rest =>
      if c = cQuote then
        match parseStrBody rest with
        | some (key, rest2) =>
          match skipWs rest2 with
          | c2 :: rest3 =>
            if c2 = Char.ofNat 58 then
              match parseVal fuel rest3 with
              | some (v, rest4) =>
                let acc := pyDictInsert acc (String.mk key) v
                match skipWs rest4 with
                | c3 :: rest5 =>
                  if c3 = Char.ofNat 44 then parseObjItems fuel (skipWs rest5) acc
                  else if c3 = cRbrace then some (.dict acc, rest5)
                  else Option.none
                | [] => Option.none
              | Option.none => Option.none
            else Option.none
          | [] => Option.none
        | Option.none => Option.none
      else Option.none
    | [] => Option.none

/-- Elements of a JSON array after the opening bracket, at least one
element present; acc holds the elements already built, in reverse. -/
def parseArrItems : Nat → List Char → List PyVal → Option (PyVal × List Char)
  | 0, _, _ => Option.none
  | fuel + 1, cs, acc =>
    match parseVal fuel cs with
    | some (v, rest) =>
      match skipWs rest with
      | c :: rest2 =>
        if c = Char.ofNat 44 then parseArrItems fuel rest2 (v :: acc)
        else if c = cRbrack then some (.list (v :: acc).reverse, rest2)
        else Option.none
      | [] => Option.none
    | Option.none => Option.none

end

/-- json.loads at the character level: one value, then only whitespace. -/
def loadsChars (cs : List Char) : Option PyVal :=
  match parseVal (cs.length + 1) cs with
  | some (v, rest) => if skipWs rest = [] then some v else Option.none
  | Option.none => Option.none

/-- json.loads on a String. -/
def loads (s : String) : Option PyVal := loadsChars s.data

/-- Python str.strip at the character level. -/
def pyStripChars (cs : List Char) : List Char :=
  ((cs.dropWhile Char.isWhitespace).reverse.dropWhile Char.isWhitespace).reverse

/-- Python str.strip. -/
def pyStrip (s : String) : String := String.mk (pyStripChars s.data)

/-- Python str.replace of every single quote by a double quote. -/
def squoteToDquote (s : String) : String :=
  String.mk (s.data.map (fun c => if c = cSquote then cQuote else c))

/-- normalize_json_value of ultimate.py: strip the string, map the empty
result to None, else parse as JSON, retrying once with single quotes
replaced by double quotes, and fall back to the stripped string. -/
def normalize_json_value (value_str : String) : PyVal :=
  let value_str := pyStrip value_str
  if value_str = "" then .none
  else
    match loads value_str with
    | some v => v
    | Option.none =>
      let fixed_str := squoteToDquote value_str
      match loads fixed_str with
      | some v => v
      | Option.none => .str value_str

/-- ensure_parsed_json of ultimate.py. -/
def ensure_parsed_json : PyVal → PyVal
  | .dict kvs => .dict kvs
  | .list xs => .list xs
  | .str s => normalize_json_value s
  | v => v

/-- DataInserter.serialize_field of ultimate.py: dict or list values are
dumped to JSON, None becomes the empty string, and the other scalars are
rendered by str (each scalar case written out here). -/
def serialize_field : PyVal → String
  | .dict kvs => dumps (.dict kvs)
  | .list xs => dumps (.list xs)
  | .none => ""
  | .str s => s
  | .int n => String.mk (intChars n)
  | .bool b => if b then "True" else "False"

/-- A row as the engine sees it: field name to value associations. -/
abbrev Row : Type := List (String × PyVal)

/-- DataInserter.clean_record_keys of ultimate.py: a dict comprehension
stripping each key, with dict semantics when stripped keys collide. -/
def clean_record_keys (record : Row) : Row :=
  record.foldl (fun acc kv => pyDictInsert acc (pyStrip kv.1) kv.2) []

/-- One character of the class [A-Za-z0-9_]. -/
def isWordChar (c : Char) : Bool :=
  (65 ≤ c.toNat && c.toNat ≤ 90) || (97 ≤ c.toNat && c.toNat ≤ 122) ||
    (48 ≤ c.toNat && c.toNat ≤ 57) || c.toNat = 95

/-- DataInserter.validate_table_name of ultimate.py, which evaluates
re.match applied to the anchored word pattern and the name.  Note the
Python dollar anchor also matches just before one trailing newline, so a
name consisting of word characters plus one final newline is accepted. -/
def validate_table_name (table_name : String) : Bool :=
  let cs := table_name.data
  let core := if cs.getLast? = some cNewlineChar then cs.dropLast else cs
  !core.isEmpty && core.all isWordChar

/-- The value the differ reads from the fetched row for a column, with
the Python default of the empty string for an absent column. -/
def columnExisting (existing : Row) (c : String) : PyVal :=
  (lookupPairs existing c).getD (.str "")

/-- DataInserter.records_differ of ultimate.py: scan the non-excluded
columns of the new record; JSON columns compare after parsing both
sides, other columns compare the raw existing value with the serialized
new value. -/
def records_differ (existing_record new_record : Row)
    (json_columns excluded_columns : List String) : Bool :=
  new_record.any (fun kv =>
    if excluded_columns.contains kv.1 then false
    else
      let serialized_new_value := serialize_field kv.2
      let existing_value := columnExisting existing_record kv.1
      if json_columns.contains kv.1 then
        !pyEq (ensure_parsed_json existing_value)
          (ensure_parsed_json (.str serialized_new_value))
      else !pyEq existing_value (.str serialized_new_value))

/-- The update loop of insert_or_update_record (lines 243 to 266 of
ultimate.py): the columns written by the UPDATE, each with the
serialized value, in record order. -/
def update_fields (cleaned_record existing_record : Row)
    (json_columns excluded_columns : List String) : List (String × String) :=
  cleaned_record.filterMap (fun kv =>
    if excluded_columns.contains kv.1 then Option.none
    else
      let serialized_value := serialize_field kv.2
      let existing_serialized := columnExisting existing_record kv.1
      if json_columns.contains kv.1 then
        if !pyEq (ensure_parsed_json existing_serialized)
            (ensure_parsed_json (.str serialized_value)) then
          some (kv.1, serialized_value)
        else Option.none
      else if !pyEq existing_serialized (.str serialized_value) then
        some (kv.1, serialized_value)
      else Option.none)

/-- The insert loop of insert_or_update_record (lines 292 to 304 of
ultimate.py): non-excluded columns keep their raw value except that JSON
columns are serialized. -/
def insert_fields_vals (cleaned_record : Row)
    (json_columns excluded_columns : List String) : Row :=
  cleaned_record.filterMap (fun kv =>
    if excluded_columns.contains kv.1 then Option.none
    else if json_columns.contains kv.1 then some (kv.1, .str (serialize_field kv.2))
    else some (kv.1, kv.2))

/-- Keep the first occurrence of each element (the model of the Python
set used to deduplicate the selected columns; Python set order is
arbitrary, only membership matters to the engine). -/
def dedupFirst (xs : List String) : List String :=
  xs.foldl (fun acc x => if acc.contains x then acc else acc ++ [x]) []

/-- The explicit column list of the SELECT (lines 220 to 221 of
ultimate.py): non-excluded record columns united with the unique keys. -/
def select_columns_of (cleaned_record : Row)
    (excluded_columns unique_keys : List String) : List String :=
  dedupFirst
    ((cleaned_record.map Prod.fst).filter (fun c => !excluded_columns.contains c)
      ++ unique_keys)

/-- The unique key values in key order; Option.none when some unique key
is missing from the record (the KeyError branch of the source). -/
def extractUnique (cleaned_record : Row) (unique_keys : List String) :
    Option (List PyVal) :=
  match unique_keys with
  | [] => some []
  | k :: tl =>
    match lookupPairs cleaned_record k with
    | Option.none => Option.none
    | some v =>
      match extractUnique cleaned_record tl with
      | Option.none => Option.none
      | some vs => some (v :: vs)

/-- One entry of the table_configs dictionary of DataInserter. -/
structure TableConfig where
  unique_keys : List String
  excluded_columns : List String
  json_columns : List String

/-- The table_configs dictionary built in DataInserter init. -/
def table_configs : String → Option TableConfig
  | "unit_test_records" => some
      { unique_keys := ["artifact_url", "artifact_name", "artifact_version"],
        excluded_columns := ["id", "created_date"],
        json_columns := ["artifact_info", "message_blob", "policy_reasons"] }
  | "sevenps_result_set" => some
      { unique_keys := ["test_request_id"],
        excluded_columns := ["id", "created_date"],
        json_columns := ["report_doc", "traceability_doc"] }
  | "jira_issues" => some
      { unique_keys := ["jira_key", "repo_url"],
        excluded_columns := ["id", "created_date"],
        json_columns := ["issue_data"] }
  | "manual_test_records" => some
      { unique_keys := ["jira_key", "artifact_url"],
        excluded_columns := ["id", "created_date"],
        json_columns := ["execution_result"] }
  | _ => Option.none

/-- The per-table counter dictionary of table_stats. -/
structure TableStats where
  total : Nat
  insertions : Nat
  updates : Nat
  skips : Nat
  failures : Nat

/-- Modelled from the spec: the storage collaborator src.database is not
in the repository, so the persisted state is the field mappings the
engine has written, grouped by table, in insertion order (section 6 of
spec.md: insert and update take field mappings, lookup returns a row). -/
abbrev Store : Type := List (String × Row)

/-- The whole mutable state of a DataInserter together with the store it
talks to. -/
structure InserterState where
  total_records : Nat
  total_insertions : Nat
  total_updates : Nat
  total_skips : Nat
  total_failures : Nat
  table_stats : List (String × TableStats)
  store : Store

/-- The state a fresh DataInserter has over a given store. -/
def initialState (store : Store) : InserterState :=
  { total_records := 0, total_insertions := 0, total_updates := 0,
    total_skips := 0, total_failures := 0,
    table_stats :=
      [("unit_test_records", ⟨0, 0, 0, 0, 0⟩), ("sevenps_result_set", ⟨0, 0, 0, 0, 0⟩),
       ("jira_issues", ⟨0, 0, 0, 0, 0⟩), ("manual_test_records", ⟨0, 0, 0, 0, 0⟩)],
    store := store }

/-- The storage calls the engine issues, with the semantic content of
the query texts it builds (column lists, unique key predicate, values). -/
inductive DbCall : Type where
  | fetch (table : String) (columns : List String)
      (whereKeys : List String) (whereVals : List PyVal) : DbCall
  | executeUpdate (table : String) (setFields : List String) (setVals : List String)
      (whereKeys : List String) (whereVals : List PyVal) : DbCall
  | executeInsert (table : String) (fields : List String) (vals : List PyVal) : DbCall

/-- Update one table entry of table_stats in place; an absent key is
left alone (callers only use this under a proven-present key, mirroring
the subscript assignment of the source). -/
def updateStats (stats : List (String × TableStats)) (t : String)
    (f : TableStats → TableStats) : List (String × TableStats) :=
  stats.map (fun e => if e.1 == t then (e.1, f e.2) else e)

/-- The subscript table_stats[table_name]["total"] += 1 of line 192:
KeyError (modelled as Option.none) when the table has no stats entry. -/
def bumpTableTotal (st : InserterState) (t : String) : Option InserterState :=
  if st.table_stats.any (fun e => e.1 == t) then
    some { st with table_stats :=
            (updateStats st.table_stats t (fun s => { s with total := s.total + 1 })) }
  else Option.none

/-- Increment the skip counters at both scopes. -/
def bumpSkip (st : InserterState) (t : String) : InserterState :=
  { st with total_skips := st.total_skips + 1,
            table_stats :=
              (updateStats st.table_stats t (fun s => { s with skips := s.skips + 1 })) }

/-- Increment the failure counters at both scopes. -/
def bumpFail (st : InserterState) (t : String) : InserterState :=
  { st with total_failures := st.total_failures + 1,
            table_stats :=
              (updateStats st.table_stats t (fun s => { s with failures := s.failures + 1 })) }

/-- Increment the update counters at both scopes. -/
def bumpUpd (st : InserterState) (t : String) : InserterState :=
  { st with total_updates := st.total_updates + 1,
            table_stats :=
              (updateStats st.table_stats t (fun s => { s with updates := s.updates + 1 })) }

/-- Increment the insertion counters at both scopes. -/
def bumpIns (st : InserterState) (t : String) : InserterState :=
  { st with total_insertions := st.total_insertions + 1,
            table_stats :=
              (updateStats st.table_stats t (fun s => { s with insertions := s.insertions + 1 })) }

/-- Modelled from the spec: a stored row satisfies the unique key
predicate of the WHERE clause when every key column is present and equal
to the looked-up value (section 6 of spec.md). -/
def rowMatches (keys : List String) (vals : List PyVal) (row : Row) : Bool :=
  (keys.zip vals).all (fun kv =>
    match lookupPairs row kv.1 with
    | some w => pyEq w kv.2
    | Option.none => false)

/-- Modelled from the spec: the SELECT returns the first stored row of
the table matching the unique key predicate, if any. -/
def fetchFirst (store : Store) (t : String) (keys : List String)
    (vals : List PyVal) : Option Row :=
  (store.find? (fun e => e.1 == t && rowMatches keys vals e.2)).map Prod.snd

/-- Modelled from the spec: apply the SET assignments of an UPDATE to
one row, each field set to the serialized string value passed. -/
def applyUps (row : Row) (ups : List (String × String)) : Row :=
  ups.foldl (fun r kv => pyDictInsert r kv.1 (.str kv.2)) row

/-- Modelled from the spec: the UPDATE sets the listed fields, to the
serialized string values the engine passes, on every matching row. -/
def applyUpdate (store : Store) (t : String) (keys : List String) (vals : List PyVal)
    (ups : List (String × String)) : Store :=
  store.map (fun e =>
    if e.1 == t && rowMatches keys vals e.2 then (e.1, applyUps e.2 ups) else e)

/-- Modelled from the spec: the INSERT appends a row holding exactly the
field mapping the engine passes. -/
def applyInsert (store : Store) (t : String) (fields : Row) : Store :=
  store ++ [(t, fields)]

/-- An uncaught Python exception escaping insert_or_update_record. -/
inductive PyErr : Type where
  | keyError (key : String) : PyErr

/-- Result of running one reconcile or one batch: the uncaught error if
one escaped, the inserter state reached, the unconsumed storage fault
oracle and the storage calls issued. -/
structure RunResult where
  err : Option PyErr
  state : InserterState
  oracle : List Bool
  calls : List DbCall

/-- Storage fault oracle: each storage call consumes one flag, false
meaning the call raises; an exhausted oracle means no fault. -/
def popOracle : List Bool → Bool × List Bool
  | [] => (true, [])
  | b :: r => (b, r)

/-- The existing_record dictionary of line 237: the selected columns
zipped with the fetched values; a column the stored row lacks is NULL. -/
def existingRowOf (row : Row) (selCols : List String) : Row :=
  selCols.map (fun c => (c, (lookupPairs row c).getD .none))

/-- The body of insert_or_update_record after the table stats entry was
found and the configuration looked up successfully. -/
def reconcileWithConfig (t : String) (cfg : TableConfig) (cleaned : Row)
    (st : InserterState) (o : List Bool) : RunResult :=
  match extractUnique cleaned cfg.unique_keys with
  | Option.none => ⟨Option.none, bumpFail st t, o, []⟩
  | some wvals =>
    let selCols := select_columns_of cleaned cfg.excluded_columns cfg.unique_keys
    let fcall := DbCall.fetch t selCols cfg.unique_keys wvals
    let po := popOracle o
    let o := po.2
    if !po.1 then ⟨Option.none, bumpFail st t, o, [fcall]⟩
    else
      match fetchFirst st.store t cfg.unique_keys wvals with
      | some row =>
        let existing := existingRowOf row selCols
        if records_differ existing cleaned cfg.json_columns cfg.excluded_columns then
          let ups := update_fields cleaned existing cfg.json_columns cfg.excluded_columns
          if ups.isEmpty then ⟨Option.none, bumpSkip st t, o, [fcall]⟩
          else
            let ucall := DbCall.executeUpdate t (ups.map Prod.fst) (ups.map Prod.snd)
              cfg.unique_keys wvals
            let po2 := popOracle o
            let o := po2.2
            if po2.1 then
              ⟨Option.none,
                bumpUpd { st with
                  store := applyUpdate st.store t cfg.unique_keys wvals ups } t,
                o, [fcall, ucall]⟩
            else ⟨Option.none, bumpFail st t, o, [fcall, ucall]⟩
        else ⟨Option.none, bumpSkip st t, o, [fcall]⟩
      | Option.none =>
        let ins := insert_fields_vals cleaned cfg.json_columns cfg.excluded_columns
        let icall := DbCall.executeInsert t (ins.map Prod.fst) (ins.map Prod.snd)
        let po2 := popOracle o
        let o := po2.2
        if po2.1 then
          ⟨Option.none,
            bumpIns { st with store := applyInsert st.store t ins } t, o, [fcall, icall]⟩
        else ⟨Option.none, bumpFail st t, o, [fcall, icall]⟩

/-- DataInserter.insert_or_update_record of ultimate.py: validate the
name, clean the keys, count the record at both scopes (the per-table
subscript raising KeyError for a table without a stats entry), look up
the configuration, then branch on key extraction, lookup and diff. -/
def insert_or_update_record (table_name : String) (record : Row)
    (st : InserterState) (o : List Bool) : RunResult :=
  if !validate_table_name table_name then ⟨Option.none, st, o, []⟩
  else
    let cleaned := clean_record_keys record
    let st1 := { st with total_records := st.total_records + 1 }
    match bumpTableTotal st1 table_name with
    | Option.none => ⟨some (.keyError table_name), st1, o, []⟩
    | some st2 =>
      match table_configs table_name with
      | Option.none => ⟨Option.none, bumpSkip st2 table_name, o, []⟩
      | some config => reconcileWithConfig table_name config cleaned st2 o

/-- Python isinstance of list, on the model. -/
def isListVal : PyVal → Bool
  | .list _ => true
  | _ => false

/-- The records of a table entry of a batch, once known to be a list. -/
def listItems : PyVal → List PyVal
  | .list xs => xs
  | _ => []

/-- Process the record sequence of one table of the batch: non-dict
entries are skipped with a warning and no other effect; an uncaught
error stops the run, as the exception would. -/
def processRecords (t : String) : List PyVal → InserterState → List Bool → RunResult
  | [], st, o => ⟨Option.none, st, o, []⟩
  | x :: xs, st, o =>
    match x with
    | .dict kvs =>
      let r := insert_or_update_record t kvs st o
      match r.err with
      | some e => ⟨some e, r.state, r.oracle, r.calls⟩
      | Option.none =>
        let rr := processRecords t xs r.state r.oracle
        ⟨rr.err, rr.state, rr.oracle, r.calls ++ rr.calls⟩
    | _ => processRecords t xs st o

/-- DataInserter.insert_data of ultimate.py: iterate the batch mapping;
a non-list table value is skipped with a warning and no other effect. -/
def insert_data : List (String × PyVal) → InserterState → List Bool → RunResult
  | [], st, o => ⟨Option.none, st, o, []⟩
  | (t, v) :: rest, st, o =>
    if isListVal v then
      let r := processRecords t (listItems v) st o
      match r.err with
      | some e => ⟨some e, r.state, r.oracle, r.calls⟩
      | Option.none =>
        let rr := insert_data rest r.state r.oracle
        ⟨rr.err, rr.state, rr.oracle, r.calls ++ rr.calls⟩
    else insert_data rest st o

/-- Keys of an association list are pairwise distinct (every dict a
Python program can build satisfies this). -/
def nodupKeys : List (String × PyVal) → Bool
  | [] => true
  | (k, _) :: rest => !rest.any (fun kv => kv.1 == k) && nodupKeys rest

mutual

/-- A PyVal is well formed when every dict inside it has distinct keys;
all values reachable from Python data satisfy this. -/
def wfVal : PyVal → Bool
  | .list xs => wfList xs
  | .dict kvs => nodupKeys kvs && wfPairs kvs
  | _ => true

/-- Well-formedness of all list elements. -/
def wfList : List PyVal → Bool
  | [] => true
  | v :: vs => wfVal v && wfList vs

/-- Well-formedness of all dict values. -/
def wfPairs : List (String × PyVal) → Bool
  | [] => true
  | (_, v) :: rest => wfVal v && wfPairs rest

end

/-- A character the JSON model serializes and parses losslessly: either
printable (code at least 32) or one of the control characters that
json.dumps escapes (backspace, tab, newline, form feed, carriage
return).  Other control characters would be emitted as a unicode escape
by Python, which is outside the model (see the header comment). -/
def saneChar (c : Char) : Bool :=
  (32 ≤ c.toNat) || c.toNat = 8 || c.toNat = 9 || c.toNat = 10 ||
    c.toNat = 12 || c.toNat = 13

mutual

/-- A value inside the lossless JSON submodel: every string and every
dict key holds sane characters only, and every dict has distinct keys
(floats and unicode escapes are outside the model). -/
def saneVal : PyVal → Bool
  | .str s => s.data.all saneChar
  | .list xs => saneItems xs
  | .dict kvs => nodupKeys kvs && sanePairs kvs
  | _ => true

/-- Sanity of all list elements. -/
def saneItems : List PyVal → Bool
  | [] => true
  | v :: vs => saneVal v && saneItems vs

/-- Sanity of all dict keys and values. -/
def sanePairs : List (String × PyVal) → Bool
  | [] => true
  | (k, v) :: rest => k.data.all saneChar && saneVal v && sanePairs rest

end

/-- The input after a serialized integer may not continue with a digit,
a decimal point or an exponent letter, or the number grammar would have
consumed further. -/
def numStop : List Char → Bool
  | [] => true
  | c :: _ =>
    !(isDigitChar c) && !(c = Char.ofNat 46) && !(c = Char.ofNat 101) &&
      !(c = Char.ofNat 69)

mutual

/-- The parser fuel a dumped value needs: one unit per parseVal or
parse-items activation along the deepest path. -/
def needF : PyVal → Nat
  | .list [] => 1
  | .dict [] => 1
  | .list (v :: vs) => needA (v :: vs) + 1
  | .dict (kv :: kvs) => needO (kv :: kvs) + 1
  | _ => 1

/-- Fuel the array-items loop needs for the remaining elements. -/
def needA : List PyVal → Nat
  | [] => 0
  | v :: vs => max (needF v) (needA vs) + 1

/-- Fuel the object-members loop needs for the remaining members. -/
def needO : List (String × PyVal) → Nat
  | [] => 0
  | (_, v) :: rest => max (needF v) (needO rest) + 1

end

theorem lookupPairs_nil (k : String) : lookupPairs [] k = Option.none := rfl

theorem lookupPairs_cons (k2 : String) (v2 : PyVal) (tl : List (String × PyVal))
    (k : String) :
    lookupPairs ((k2, v2) :: tl) k = if k2 == k then some v2 else lookupPairs tl k := by
  by_cases h : (k2 == k) = true
  · simp [lookupPairs, List.find?_cons_of_pos, h]
  · simp only [Bool.not_eq_true] at h
    simp [lookupPairs, List.find?_cons_of_neg, h]

theorem wfList_mem {xs : List PyVal} (h : wfList xs = true) {x : PyVal}
    (hm : x ∈ xs) : wfVal x = true := by
  induction xs with
  | nil => cases hm
  | cons hd tl ih =>
    simp only [wfList, Bool.and_eq_true] at h
    rcases List.mem_cons.mp hm with h1 | h2
    · exact h1 ▸ h.1
    · exact ih h.2 h2

theorem wfPairs_mem {kvs : List (String × PyVal)} (h : wfPairs kvs = true)
    {kv : String × PyVal} (hm : kv ∈ kvs) : wfVal kv.2 = true := by
  induction kvs with
  | nil => cases hm
  | cons hd tl ih =>
    obtain ⟨k2, v2⟩ := hd
    simp only [wfPairs, Bool.and_eq_true] at h
    rcases List.mem_cons.mp hm with h1 | h2
    · rw [h1]; exact h.1
    · exact ih h.2 h2

theorem lookupPairs_self_of_nodup {kvs : List (String × PyVal)}
    (h : nodupKeys kvs = true) : ∀ kv ∈ kvs, lookupPairs kvs kv.1 = some kv.2 := by
  induction kvs with
  | nil => intro kv hm; cases hm
  | cons hd tl ih =>
    obtain ⟨k, v⟩ := hd
    simp only [nodupKeys, Bool.and_eq_true, Bool.not_eq_true] at h
    intro kv hm
    rcases List.mem_cons.mp hm with h1 | h2
    · subst h1; simp [lookupPairs_cons]
    · have hne : (k == kv.1) = false := by
        rw [beq_eq_false_iff_ne]
        intro he
        have : tl.any (fun p => p.1 == k) = true :=
          List.any_eq_true.mpr ⟨kv, h2, by simp [he]⟩
        simp [this] at h
      rw [lookupPairs_cons, hne]
      · exact ih h.2 kv h2

theorem pyFindEqW_of_lookup {k : String} {v w : PyVal} {ys : List (String × PyVal)}
    (hl : lookupPairs ys k = some w) (hv : pyEqW v w = true) : pyFindEqW k v ys = true := by
  induction ys with
  | nil => rw [lookupPairs_nil] at hl; cases hl
  | cons hd tl ih =>
    obtain ⟨k2, v2⟩ := hd
    rw [lookupPairs_cons] at hl
    by_cases hk : (k2 == k) = true
    · rw [if_pos hk] at hl
      injection hl with hl
      simp [pyFindEqW, hk, hl ▸ hv]
    · simp only [Bool.not_eq_true] at hk
      rw [hk] at hl
      simp only [if_neg Bool.false_ne_true] at hl
      simp [pyFindEqW, hk]
      exact ih hl

theorem pyEqSubW_of_forall {kvs ys : List (String × PyVal)}
    (h : ∀ kv ∈ kvs, ∃ w, lookupPairs ys kv.1 = some w ∧ pyEqW kv.2 w = true) :
    pyEqSubW kvs ys = true := by
  induction kvs with
  | nil => simp [pyEqSubW]
  | cons hd tl ih =>
    obtain ⟨k, v⟩ := hd
    obtain ⟨w, hw, hv⟩ := h (k, v) (List.mem_cons_self _ _)
    simp only [pyEqSubW, Bool.and_eq_true]
    exact ⟨pyFindEqW_of_lookup hw hv, ih (fun kv hm => h kv (List.mem_cons_of_mem _ hm))⟩

theorem pyEqListW_of_forall {xs : List PyVal}
    (h : ∀ x ∈ xs, pyEqW x x = true) : pyEqListW xs xs = true := by
  induction xs with
  | nil => simp [pyEqListW]
  | cons hd tl ih =>
    simp only [pyEqListW, Bool.and_eq_true]
    exact ⟨h hd (List.mem_cons_self _ _), ih (fun x hm => h x (List.mem_cons_of_mem _ hm))⟩

/-- Python equality is reflexive on well-formed values. -/
theorem pyEqW_refl : ∀ (v : PyVal), wfVal v = true → pyEqW v v = true
  | .none, _ => by simp [pyEqW]
  | .bool b, _ => by simp [pyEqW]
  | .int n, _ => by simp [pyEqW]
  | .str s, _ => by simp [pyEqW]
  | .list xs, h => by
    simp only [pyEqW]
    exact pyEqListW_of_forall (fun x hm =>
      pyEqW_refl x (wfList_mem (by simpa [wfVal] using h) hm))
  | .dict kvs, h => by
    have hw : nodupKeys kvs = true ∧ wfPairs kvs = true := by
      simpa [wfVal, Bool.and_eq_true] using h
    simp only [pyEqW, Bool.and_eq_true]
    refine ⟨by simp, pyEqSubW_of_forall (fun kv hm => ?_)⟩
    exact ⟨kv.2, lookupPairs_self_of_nodup hw.1 kv hm,
      pyEqW_refl kv.2 (wfPairs_mem hw.2 hm)⟩
  termination_by v => sizeOf v
  decreasing_by
    all_goals simp_wf
    · have := List.sizeOf_lt_of_mem hm; omega
    · have h1 := List.sizeOf_lt_of_mem hm
      obtain ⟨a, b⟩ := kv
      simp at h1 ⊢; omega

/-- Python equality is reflexive on well-formed values (executable
form). -/
theorem pyEq_refl_of_wf (v : PyVal) (h : wfVal v = true) : pyEq v v = true := by
  rw [pyEq_eq_pyEqW]
  exact pyEqW_refl v h

/-- The per-table counters balance: processed records split into the
four terminal outcomes. -/
def statsOk (s : TableStats) : Prop :=
  s.total = s.insertions + s.updates + s.skips + s.failures

/-- The invariant of claim C1, at the global scope and at every
per-table scope. -/
def statsInvariant (st : InserterState) : Prop :=
  st.total_records =
    st.total_insertions + st.total_updates + st.total_skips + st.total_failures ∧
  ∀ p ∈ st.table_stats, statsOk p.2

theorem updateStats_comp (stats : List (String × TableStats)) (t : String)
    (f g : TableStats → TableStats) :
    updateStats (updateStats stats t f) t g = updateStats stats t (fun s => g (f s)) := by
  induction stats with
  | nil => rfl
  | cons hd tl ih =>
    obtain ⟨a, b⟩ := hd
    simp only [updateStats, List.map_cons] at ih ⊢
    rw [ih]
    by_cases h : (a == t) = true
    · simp only [h, if_true]
    · simp only [Bool.not_eq_true] at h
      simp only [h, if_neg Bool.false_ne_true]

theorem updateStats_forall {stats : List (String × TableStats)} {t : String}
    {f : TableStats → TableStats} {P : TableStats → Prop}
    (h : ∀ p ∈ stats, P p.2) (hf : ∀ s, P s → P (f s)) :
    ∀ p ∈ updateStats stats t f, P p.2 := by
  induction stats with
  | nil => intro p hp; cases hp
  | cons hd tl ih =>
    intro p hp
    simp only [updateStats, List.map_cons] at hp
    rcases List.mem_cons.mp hp with h1 | h2
    · by_cases he : (hd.1 == t) = true
      · rw [if_pos he] at h1
        rw [h1]
        exact hf _ (h hd (List.mem_cons_self _ _))
      · simp only [Bool.not_eq_true] at he
        rw [he] at h1
        simp only [if_neg Bool.false_ne_true] at h1
        rw [h1]
        exact h hd (List.mem_cons_self _ _)
    · exact ih (fun p hp => h p (List.mem_cons_of_mem _ hp)) p h2

/-- reconcileWithConfig never raises, and its state is one of the four
outcome bumps applied to its input state (with a possibly changed
store). -/
theorem reconcileWithConfig_state (t : String) (cfg : TableConfig) (cleaned : Row)
    (st : InserterState) (o : List Bool) :
    (reconcileWithConfig t cfg cleaned st o).err = Option.none ∧
    (∃ sto : Store,
      (reconcileWithConfig t cfg cleaned st o).state = bumpFail { st with store := sto } t ∨
      (reconcileWithConfig t cfg cleaned st o).state = bumpSkip { st with store := sto } t ∨
      (reconcileWithConfig t cfg cleaned st o).state = bumpUpd { st with store := sto } t ∨
      (reconcileWithConfig t cfg cleaned st o).state = bumpIns { st with store := sto } t) := by
  unfold reconcileWithConfig
  dsimp only
  split
  · exact ⟨rfl, st.store, Or.inl rfl⟩
  · split
    · exact ⟨rfl, st.store, Or.inl rfl⟩
    · split
      · split
        · split
          · exact ⟨rfl, st.store, Or.inr (Or.inl rfl)⟩
          · split
            · exact ⟨rfl, _, Or.inr (Or.inr (Or.inl rfl))⟩
            · exact ⟨rfl, st.store, Or.inl rfl⟩
        · exact ⟨rfl, st.store, Or.inr (Or.inl rfl)⟩
      · split
        · exact ⟨rfl, _, Or.inr (Or.inr (Or.inr rfl))⟩
        · exact ⟨rfl, st.store, Or.inl rfl⟩

theorem statsInvariant_double {stats : List (String × TableStats)} {t : String}
    {ftot fout : TableStats → TableStats}
    (h : ∀ p ∈ stats, statsOk p.2) (hpres : ∀ s, statsOk s → statsOk (fout (ftot s))) :
    ∀ p ∈ updateStats (updateStats stats t ftot) t fout, statsOk p.2 := by
  rw [updateStats_comp]
  exact updateStats_forall h hpres

/-- One reconcile call preserves the statistics invariant whenever no
exception escapes it. -/
theorem insert_or_update_preserves (t : String) (r : Row) (st : InserterState)
    (o : List Bool) (h : statsInvariant st)
    (he : (insert_or_update_record t r st o).err = Option.none) :
    statsInvariant (insert_or_update_record t r st o).state := by
  unfold insert_or_update_record at he ⊢
  by_cases hv : validate_table_name t
  case neg =>
    simp only [hv, Bool.not_false, if_true] at he ⊢
    exact h
  case pos =>
    simp only [hv, Bool.not_true, Bool.false_eq_true, if_false] at he ⊢
    cases hbt : bumpTableTotal { st with total_records := st.total_records + 1 } t with
    | none => simp [hbt] at he
    | some st2 =>
      simp only [hbt] at he ⊢
      have hst2 : st2 = { st with total_records := st.total_records + 1, table_stats := updateStats st.table_stats t (fun s => { s with total := s.total + 1 }) } := by
        unfold bumpTableTotal at hbt
        split at hbt
        · injection hbt with hbt
          exact hbt.symm
        · cases hbt
      cases hcfg : table_configs t with
      | none =>
        simp only [hcfg] at he ⊢
        subst hst2
        constructor
        · simp only [bumpSkip]
          have := h.1
          omega
        · simp only [bumpSkip]
          refine statsInvariant_double h.2 (fun s hs => ?_)
          simp only [statsOk] at hs ⊢
          omega
      | some cfg =>
        simp only [hcfg] at he ⊢
        obtain ⟨_, sto, hsh⟩ :=
          reconcileWithConfig_state t cfg (clean_record_keys r) st2 o
        subst hst2
        rcases hsh with h1 | h1 | h1 | h1 <;> rw [h1] <;> constructor
        · simp only [bumpFail]
          have := h.1
          omega
        · simp only [bumpFail]
          refine statsInvariant_double h.2 (fun s hs => ?_)
          simp only [statsOk] at hs ⊢
          omega
        · simp only [bumpSkip]
          have := h.1
          omega
        · simp only [bumpSkip]
          refine statsInvariant_double h.2 (fun s hs => ?_)
          simp only [statsOk] at hs ⊢
          omega
        · simp only [bumpUpd]
          have := h.1
          omega
        · simp only [bumpUpd]
          refine statsInvariant_double h.2 (fun s hs => ?_)
          simp only [statsOk] at hs ⊢
          omega
        · simp only [bumpIns]
          have := h.1
          omega
        · simp only [bumpIns]
          refine statsInvariant_double h.2 (fun s hs => ?_)
          simp only [statsOk] at hs ⊢
          omega

theorem processRecords_preserves (t : String) (xs : List PyVal) :
    ∀ (st : InserterState) (o : List Bool), statsInvariant st →
      (processRecords t xs st o).err = Option.none →
      statsInvariant (processRecords t xs st o).state := by
  induction xs with
  | nil => intro st o h _; exact h
  | cons x tl ih =>
    intro st o h he
    cases x with
    | dict kvs =>
      simp only [processRecords] at he ⊢
      cases hre : (insert_or_update_record t kvs st o).err with
      | some e => exact absurd he (by simp [hre])
      | none =>
        simp only [hre] at he ⊢
        exact ih _ _ (insert_or_update_preserves t kvs st o h hre) he
    | none => exact ih st o h (by simpa [processRecords] using he)
    | bool b => exact ih st o h (by simpa [processRecords] using he)
    | int n => exact ih st o h (by simpa [processRecords] using he)
    | str s => exact ih st o h (by simpa [processRecords] using he)
    | list ys => exact ih st o h (by simpa [processRecords] using he)

theorem insert_data_preserves (batch : List (String × PyVal)) :
    ∀ (st : InserterState) (o : List Bool), statsInvariant st →
      (insert_data batch st o).err = Option.none →
      statsInvariant (insert_data batch st o).state := by
  induction batch with
  | nil => intro st o h _; exact h
  | cons e tl ih =>
    intro st o h he
    obtain ⟨t, v⟩ := e
    by_cases hl : isListVal v = true
    · simp only [insert_data, hl, if_true] at he ⊢
      cases hre : (processRecords t (listItems v) st o).err with
      | some e2 => exact absurd he (by simp [hre])
      | none =>
        simp only [hre] at he ⊢
        exact ih _ _ (processRecords_preserves t (listItems v) st o h hre) he
    · simp only [Bool.not_eq_true] at hl
      simp only [insert_data, hl, Bool.false_eq_true, if_false] at he ⊢
      exact ih st o h he

theorem statsInvariant_initial (store : Store) : statsInvariant (initialState store) := by
  constructor
  · rfl
  · intro p hp
    simp only [initialState, List.mem_cons, List.mem_singleton] at hp
    rcases hp with h | h | h | h | h <;> first
      | (rw [h]; rfl)
      | cases h

/-- C1: after processing any batch that runs to completion, the
statistics counters satisfy total equals inserted plus updated plus
skipped plus failed, globally and for every entity type: each counted
record resolves to exactly one terminal outcome at each scope. -/
theorem stats_invariant_after_batch (batch : List (String × PyVal)) (store0 : Store)
    (o : List Bool) (h : (insert_data batch (initialState store0) o).err = Option.none) :
    statsInvariant (insert_data batch (initialState store0) o).state :=
  insert_data_preserves batch (initialState store0) o (statsInvariant_initial store0) h

theorem stats_invariant_after_batch_witness :
    (insert_data
        [("unit_test_records", .list
            [.dict [("artifact_url", .str "u"), ("artifact_name", .str "n"),
                    ("artifact_version", .str "v1"), ("coverage", .str "0.8")],
             .int 7]),
         ("jira_issues", .list [.dict [("jira_key", .str "K")]])]
        (initialState []) []).err = Option.none ∧
    statsInvariant
      (insert_data
        [("unit_test_records", .list
            [.dict [("artifact_url", .str "u"), ("artifact_name", .str "n"),
                    ("artifact_version", .str "v1"), ("coverage", .str "0.8")],
             .int 7]),
         ("jira_issues", .list [.dict [("jira_key", .str "K")]])]
        (initialState []) []).state :=
  ⟨rfl, stats_invariant_after_batch _ _ _ rfl⟩

/-- C10 counterexample: the entity type name unit_test_records followed
by one newline contains a character outside letters, digits and
underscore, yet reconcile does not return before counting: the Python
dollar anchor matches before a trailing newline, validation passes, the
global total counter is incremented (and the per-table subscript then
raises KeyError). -/
theorem reconcile_counts_despite_bad_char :
    ("unit_test_records\n".data.all isWordChar = false) ∧
    (insert_or_update_record "unit_test_records\n" [] (initialState []) []).state.total_records
      = 1 ∧
    (insert_or_update_record "unit_test_records\n" [] (initialState []) []).err =
      some (.keyError "unit_test_records\n") :=
  ⟨rfl, rfl, rfl⟩

/-- C10 (amended): for every record whose entity type name fails the
anchored word pattern as Python evaluates it (empty, or containing a
character outside letters, digits and underscore elsewhere than a single
trailing newline), reconcile returns immediately, with no storage call
and no change to any statistics counter. -/
theorem invalid_table_name_no_effect (t : String) (r : Row) (st : InserterState)
    (o : List Bool) (h : validate_table_name t = false) :
    insert_or_update_record t r st o = ⟨Option.none, st, o, []⟩ := by
  unfold insert_or_update_record
  simp [h]

theorem invalid_table_name_no_effect_witness :
    validate_table_name "bad name" = false ∧
    insert_or_update_record "bad name" [("x", .int 1)] (initialState []) [] =
      ⟨Option.none, initialState [], [], []⟩ :=
  ⟨rfl, invalid_table_name_no_effect _ _ _ _ rfl⟩

theorem extractUnique_eq_none_of_missing {row : Row} {keys : List String} {k : String}
    (hk : k ∈ keys) (hmiss : lookupPairs row k = Option.none) :
    extractUnique row keys = Option.none := by
  induction keys with
  | nil => cases hk
  | cons k2 tl ih =>
    rcases List.mem_cons.mp hk with h1 | h2
    · subst h1
      simp [extractUnique, hmiss]
    · cases hl : lookupPairs row k2 with
      | none => simp [extractUnique, hl]
      | some v => simp [extractUnique, hl, ih h2]

/-- C5: a record of a configured entity type missing a unique key field
resolves to Failed: the total and failure counters rise by one at the
global and at the per-table scope, and no storage call of any kind is
issued for the record. -/
theorem missing_unique_key_fails (t : String) (cfg : TableConfig) (r : Row)
    (st : InserterState) (o : List Bool) (k : String)
    (hv : validate_table_name t = true)
    (hstats : st.table_stats.any (fun e => e.1 == t) = true)
    (hcfg : table_configs t = some cfg)
    (hk : k ∈ cfg.unique_keys)
    (hmiss : lookupPairs (clean_record_keys r) k = Option.none) :
    insert_or_update_record t r st o =
      ⟨Option.none, bumpFail { st with total_records := st.total_records + 1, table_stats := updateStats st.table_stats t (fun s => { s with total := s.total + 1 }) } t, o, []⟩ := by
  unfold insert_or_update_record bumpTableTotal reconcileWithConfig
  simp [hv, hstats, hcfg, extractUnique_eq_none_of_missing hk hmiss]

theorem missing_unique_key_fails_witness :
    (insert_or_update_record "unit_test_records"
        [("artifact_url", .str "u"), ("artifact_name", .str "n")]
        (initialState []) []).state.total_failures = 1 ∧
    (insert_or_update_record "unit_test_records"
        [("artifact_url", .str "u"), ("artifact_name", .str "n")]
        (initialState []) []).calls = [] := by
  have h := missing_unique_key_fails "unit_test_records"
    { unique_keys := ["artifact_url", "artifact_name", "artifact_version"],
      excluded_columns := ["id", "created_date"],
      json_columns := ["artifact_info", "message_blob", "policy_reasons"] }
    [("artifact_url", .str "u"), ("artifact_name", .str "n")]
    (initialState []) [] "artifact_version" rfl rfl rfl
    (by simp) rfl
  rw [h]
  exact ⟨rfl, rfl⟩

/-- C6: the code contradicts its own skip branch for an unconfigured
entity type: the per-table total subscript raises KeyError before the
configuration lookup, so a record of the valid but unconfigured table
unknown_table aborts reconcile with an uncaught error after counting the
record globally, instead of being skipped with a warning. -/
theorem unconfigured_table_raises_keyerror :
    insert_or_update_record "unknown_table" [("a", .str "b")] (initialState []) [] =
      ⟨some (.keyError "unknown_table"), { initialState [] with total_records := 1 }, [], []⟩ :=
  rfl

/-- C9 counterexample: a batch binding an entity type to a non-list
value completes with every statistics counter at zero and no storage
call, so the malformed entry is not counted as skipped as the claim
states. -/
theorem nonlist_entry_not_counted :
    insert_data [("unit_test_records", .int 42)] (initialState []) [] =
      ⟨Option.none, initialState [], [], []⟩ ∧
    (initialState []).total_skips = 0 :=
  ⟨rfl, rfl⟩

/-- Python isinstance of dict, on the model. -/
def isDictVal : PyVal → Bool
  | .dict _ => true
  | _ => false

/-- C9 (amended): a non-list value for an entity type, and a non-dict
entry inside a record sequence, are skipped with a warning and no
storage call, but are not counted in any statistics counter: the batch
result is the same as if the entry were absent. -/
theorem malformed_shape_skipped_uncounted :
    (∀ (t : String) (v : PyVal) (rest : List (String × PyVal)) (st : InserterState)
      (o : List Bool), isListVal v = false →
        insert_data ((t, v) :: rest) st o = insert_data rest st o) ∧
    (∀ (t : String) (x : PyVal) (xs : List PyVal) (st : InserterState)
      (o : List Bool), isDictVal x = false →
        processRecords t (x :: xs) st o = processRecords t xs st o) := by
  constructor
  · intro t v rest st o h
    simp [insert_data, h]
  · intro t x xs st o h
    cases x <;> first
      | rfl
      | (simp [isDictVal] at h)

theorem malformed_shape_skipped_uncounted_witness :
    insert_data [("unit_test_records", .int 42)] (initialState []) [] =
      insert_data [] (initialState []) [] ∧
    processRecords "unit_test_records" [.str "x"] (initialState []) [] =
      processRecords "unit_test_records" [] (initialState []) [] :=
  ⟨malformed_shape_skipped_uncounted.1 _ _ _ _ _ rfl,
   malformed_shape_skipped_uncounted.2 _ _ _ _ _ rfl⟩

/-- C7 counterexample: applied to one space followed by x, a string on
which both parse attempts fail, the normalizer returns the stripped
string x rather than the original string, because it strips before
parsing; so the worst case is not the original string unparsed. -/
theorem normalize_not_original_counterexample :
    normalize_json_value " x" = PyVal.str "x" ∧
    PyVal.str "x" ≠ PyVal.str " x" ∧
    loads " x" = Option.none ∧ loads (squoteToDquote " x") = Option.none :=
  ⟨rfl, by simp, rfl, rfl⟩

/-- C7 (amended): the normalizer first strips surrounding whitespace; a
string blank after stripping yields None with no parse attempt;
otherwise it attempts a JSON parse of the stripped string, on failure
retries with every single quote replaced by a double quote, and on a
second failure returns the stripped string (not the original) as the
comparable value; it is a total deterministic function. -/
theorem normalize_json_value_amended (s : String) :
    (pyStrip s = "" → normalize_json_value s = PyVal.none) ∧
    (∀ v, pyStrip s ≠ "" → loads (pyStrip s) = some v → normalize_json_value s = v) ∧
    (∀ v, pyStrip s ≠ "" → loads (pyStrip s) = Option.none →
      loads (squoteToDquote (pyStrip s)) = some v → normalize_json_value s = v) ∧
    (pyStrip s ≠ "" → loads (pyStrip s) = Option.none →
      loads (squoteToDquote (pyStrip s)) = Option.none →
      normalize_json_value s = PyVal.str (pyStrip s)) := by
  refine ⟨?_, ?_, ?_, ?_⟩
  · intro h
    unfold normalize_json_value
    simp [h]
  · intro v h1 h2
    unfold normalize_json_value
    simp [h1, h2]
  · intro v h1 h2 h3
    unfold normalize_json_value
    simp [h1, h2, h3]
  · intro h1 h2 h3
    unfold normalize_json_value
    simp [h1, h2, h3]

theorem normalize_json_value_amended_witness :
    normalize_json_value " [1]" = PyVal.list [.int 1] :=
  (normalize_json_value_amended " [1]").2.1 _ (by decide) rfl

theorem mem_dedupFirst_aux (xs : List String) (x : String) :
    ∀ acc : List String,
      (x ∈ xs.foldl (fun acc y => if acc.contains y then acc else acc ++ [y]) acc ↔
        x ∈ acc ∨ x ∈ xs) := by
  induction xs with
  | nil => intro acc; simp
  | cons hd tl ih =>
    intro acc
    simp only [List.foldl_cons]
    by_cases h : acc.contains hd
    · rw [if_pos h]
      rw [ih acc]
      constructor
      · rintro (ha | ht)
        · exact Or.inl ha
        · exact Or.inr (List.mem_cons_of_mem _ ht)
      · rintro (ha | ht)
        · exact Or.inl ha
        · rcases List.mem_cons.mp ht with h1 | h2
          · subst h1
            exact Or.inl (by simpa using h)
          · exact Or.inr h2
    · rw [if_neg h]
      rw [ih (acc ++ [hd])]
      simp only [List.mem_append, List.mem_singleton, List.mem_cons]
      tauto

theorem mem_dedupFirst (xs : List String) (x : String) :
    x ∈ dedupFirst xs ↔ x ∈ xs := by
  have := mem_dedupFirst_aux xs x []
  simpa [dedupFirst] using this

theorem mem_select_columns (cleaned : Row) (exc uk : List String) (c : String) :
    c ∈ select_columns_of cleaned exc uk ↔
      (c ∈ cleaned.map Prod.fst ∧ ¬ exc.contains c) ∨ c ∈ uk := by
  unfold select_columns_of
  rw [mem_dedupFirst]
  simp [List.mem_filter]

/-- A reconcile run either issues no storage call at all, or behaves as
reconcileWithConfig on the cleaned record over the same store. -/
theorem insert_or_update_calls_split (t : String) (r : Row) (st : InserterState)
    (o : List Bool) :
    (insert_or_update_record t r st o).calls = [] ∨
    ∃ cfg st2, table_configs t = some cfg ∧ st2.store = st.store ∧
      insert_or_update_record t r st o = reconcileWithConfig t cfg (clean_record_keys r) st2 o := by
  unfold insert_or_update_record
  by_cases hv : validate_table_name t
  case neg =>
    left
    simp [hv]
  case pos =>
    simp only [hv, Bool.not_true, Bool.false_eq_true, if_false]
    cases hbt : bumpTableTotal { st with total_records := st.total_records + 1 } t with
    | none => left; rfl
    | some st2 =>
      cases hcfg : table_configs t with
      | none => left; rfl
      | some cfg =>
        right
        refine ⟨cfg, st2, rfl, ?_, rfl⟩
        unfold bumpTableTotal at hbt
        split at hbt
        · injection hbt with hbt
          rw [← hbt]
        · cases hbt

/-- Call traces of reconcileWithConfig: nothing, one SELECT, SELECT
then the UPDATE the update loop builds, or SELECT then the INSERT the
insert loop builds. -/
theorem reconcileWithConfig_calls (t : String) (cfg : TableConfig) (cleaned : Row)
    (st : InserterState) (o : List Bool) :
    (reconcileWithConfig t cfg cleaned st o).calls = [] ∨
    ∃ wvals, extractUnique cleaned cfg.unique_keys = some wvals ∧
      (let selCols := select_columns_of cleaned cfg.excluded_columns cfg.unique_keys
       let fcall := DbCall.fetch t selCols cfg.unique_keys wvals
       (reconcileWithConfig t cfg cleaned st o).calls = [fcall] ∨
       (∃ row, fetchFirst st.store t cfg.unique_keys wvals = some row ∧
         (let ups := update_fields cleaned (existingRowOf row selCols)
            cfg.json_columns cfg.excluded_columns
          (reconcileWithConfig t cfg cleaned st o).calls =
            [fcall, DbCall.executeUpdate t (ups.map Prod.fst) (ups.map Prod.snd)
              cfg.unique_keys wvals])) ∨
       (let ins := insert_fields_vals cleaned cfg.json_columns cfg.excluded_columns
        (reconcileWithConfig t cfg cleaned st o).calls =
          [fcall, DbCall.executeInsert t (ins.map Prod.fst) (ins.map Prod.snd)])) := by
  unfold reconcileWithConfig
  dsimp only
  split
  · exact Or.inl rfl
  · rename_i wvals hex
    right
    refine ⟨wvals, hex, ?_⟩
    dsimp only
    split
    · exact Or.inl rfl
    · split
      · rename_i row hf
        split
        · split
          · exact Or.inl rfl
          · split
            · exact Or.inr (Or.inl ⟨row, hf, rfl⟩)
            · exact Or.inr (Or.inl ⟨row, hf, rfl⟩)
        · exact Or.inl rfl
      · split
        · exact Or.inr (Or.inr rfl)
        · exact Or.inr (Or.inr rfl)

/-- C8: for every record of a configured entity type, any SELECT the
engine issues names as its column set exactly the union of the cleaned
record's non-excluded field names and the unique key fields, and never a
select-all shape. -/
theorem select_columns_exact (t : String) (r : Row) (st : InserterState) (o : List Bool)
    (tbl : String) (cols wk : List String) (wv : List PyVal)
    (hc : DbCall.fetch tbl cols wk wv ∈ (insert_or_update_record t r st o).calls) :
    ∃ cfg, table_configs t = some cfg ∧ tbl = t ∧ wk = cfg.unique_keys ∧
      ∀ c, c ∈ cols ↔
        ((c ∈ (clean_record_keys r).map Prod.fst ∧ ¬ cfg.excluded_columns.contains c) ∨
         c ∈ cfg.unique_keys) := by
  rcases insert_or_update_calls_split t r st o with h0 | ⟨cfg, st2, hcfg, hsto, heq⟩
  · rw [h0] at hc
    cases hc
  · rw [heq] at hc
    rcases reconcileWithConfig_calls t cfg (clean_record_keys r) st2 o with
      h0 | ⟨wvals, hex, hsh⟩
    · rw [h0] at hc
      cases hc
    · dsimp only at hsh
      rcases hsh with h1 | ⟨row, hf, h1⟩ | h1 <;>
        · rw [h1] at hc
          simp at hc
          obtain ⟨h1t, h2c, h3w, h4v⟩ := hc
          subst h1t
          subst h3w
          refine ⟨cfg, hcfg, rfl, rfl, fun c => ?_⟩
          rw [h2c]
          exact mem_select_columns (clean_record_keys r) cfg.excluded_columns
            cfg.unique_keys c

/-- The field set computed by the Differ of spec section 4.3: every
non-excluded candidate field whose canonical existing and candidate
values differ, structured fields compared after parsing both sides,
other fields compared textually, in candidate record order. -/
def differingFields (existing candidate : Row)
    (structured excluded : List String) : List String :=
  candidate.filterMap (fun kv =>
    if excluded.contains kv.1 then Option.none
    else
      let persisted := serialize_field kv.2
      let existingVal := columnExisting existing kv.1
      let differs :=
        if structured.contains kv.1 then
          !pyEq (ensure_parsed_json existingVal) (ensure_parsed_json (.str persisted))
        else !pyEq existingVal (.str persisted)
      if differs then some kv.1 else Option.none)

/-- Any list element satisfies p exactly when its filterMap image is
present; emptiness of the image is failure of any. -/
theorem isEmpty_filterMap {α β : Type} (f : α → Option β) (l : List α) :
    (List.filterMap f l).isEmpty = !l.any (fun a => (f a).isSome) := by
  induction l with
  | nil => rfl
  | cons hd tl ih =>
    rw [List.filterMap_cons]
    cases hf : f hd with
    | none => simp [hf, ih]
    | some b => simp [hf]

theorem any_congr {α : Type} {l : List α} {p q : α → Bool}
    (h : ∀ a ∈ l, p a = q a) : l.any p = l.any q := by
  induction l with
  | nil => rfl
  | cons hd tl ih =>
    simp only [List.any_cons]
    rw [h hd (List.mem_cons_self _ _), ih (fun a ha => h a (List.mem_cons_of_mem _ ha))]

/-- The update loop writes exactly the fields the Differ reports. -/
theorem update_fields_map_fst (cleaned existing : Row) (j x : List String) :
    (update_fields cleaned existing j x).map Prod.fst = differingFields existing cleaned j x := by
  rw [update_fields, differingFields, List.map_filterMap]
  refine List.filterMap_congr (fun kv _ => ?_)
  by_cases hexc : kv.1 ∈ x
  · simp [hexc]
  · by_cases hjson : kv.1 ∈ j
    · by_cases hdiff : pyEq (ensure_parsed_json (columnExisting existing kv.1))
        (ensure_parsed_json (.str (serialize_field kv.2))) = true
      · simp [hexc, hjson, hdiff]
      · simp only [Bool.not_eq_true] at hdiff
        simp [hexc, hjson, hdiff]
    · by_cases hdiff : pyEq (columnExisting existing kv.1)
        (.str (serialize_field kv.2)) = true
      · simp [hexc, hjson, hdiff]
      · simp only [Bool.not_eq_true] at hdiff
        simp [hexc, hjson, hdiff]

/-- The Boolean differ is exactly non-emptiness of the update loop
field set. -/
theorem records_differ_iff (existing cleaned : Row) (j x : List String) :
    records_differ existing cleaned j x = !(update_fields cleaned existing j x).isEmpty := by
  rw [records_differ, update_fields, isEmpty_filterMap, Bool.not_not]
  refine any_congr (fun kv _ => ?_)
  by_cases hexc : kv.1 ∈ x
  · simp [hexc]
  · by_cases hjson : kv.1 ∈ j
    · by_cases hdiff : pyEq (ensure_parsed_json (columnExisting existing kv.1))
        (ensure_parsed_json (.str (serialize_field kv.2))) = true
      · simp [hexc, hjson, hdiff]
      · simp only [Bool.not_eq_true] at hdiff
        simp [hexc, hjson, hdiff]
    · by_cases hdiff : pyEq (columnExisting existing kv.1)
        (.str (serialize_field kv.2)) = true
      · simp [hexc, hjson, hdiff]
      · simp only [Bool.not_eq_true] at hdiff
        simp [hexc, hjson, hdiff]

/-- C4: every UPDATE the engine issues writes exactly the fields the
Differ reports as differing for the fetched row, together with the
unique key predicate; no field whose canonical values agree is written. -/
theorem update_writes_exactly_differing_fields (t : String) (r : Row) (st : InserterState)
    (o : List Bool) (tbl : String) (fs vs : List String) (wk : List String)
    (wv : List PyVal)
    (hc : DbCall.executeUpdate tbl fs vs wk wv ∈ (insert_or_update_record t r st o).calls) :
    ∃ cfg row, table_configs t = some cfg ∧ tbl = t ∧ wk = cfg.unique_keys ∧
      fetchFirst st.store t cfg.unique_keys wv = some row ∧
      fs = differingFields
        (existingRowOf row
          (select_columns_of (clean_record_keys r) cfg.excluded_columns cfg.unique_keys))
        (clean_record_keys r) cfg.json_columns cfg.excluded_columns := by
  rcases insert_or_update_calls_split t r st o with h0 | ⟨cfg, st2, hcfg, hsto, heq⟩
  · rw [h0] at hc
    cases hc
  · rw [heq] at hc
    rcases reconcileWithConfig_calls t cfg (clean_record_keys r) st2 o with
      h0 | ⟨wvals, hex, hsh⟩
    · rw [h0] at hc
      cases hc
    · dsimp only at hsh
      rcases hsh with h1 | ⟨row, hf, h1⟩ | h1
      · rw [h1] at hc
        simp at hc
      · rw [h1] at hc
        simp at hc
        obtain ⟨h1t, h2f, h3v, h4w, h5v⟩ := hc
        subst h1t
        subst h4w
        subst h5v
        rw [hsto] at hf
        refine ⟨cfg, row, hcfg, rfl, rfl, hf, ?_⟩
        rw [h2f]
        exact update_fields_map_fst (clean_record_keys r) _ cfg.json_columns
          cfg.excluded_columns
      · rw [h1] at hc
        simp at hc

theorem select_columns_exact_witness :
    ∃ cfg, table_configs "jira_issues" = some cfg ∧ "jira_issues" = "jira_issues" ∧
      ["jira_key", "repo_url"] = cfg.unique_keys ∧
      ∀ c, c ∈ ["jira_key", "repo_url", "jira_status"] ↔
        ((c ∈ (clean_record_keys
            [("jira_key", PyVal.str "K"), ("repo_url", PyVal.str "R"),
             ("jira_status", PyVal.str "open")]).map Prod.fst ∧
          ¬ cfg.excluded_columns.contains c) ∨ c ∈ cfg.unique_keys) :=
  select_columns_exact "jira_issues"
    [("jira_key", PyVal.str "K"), ("repo_url", PyVal.str "R"),
     ("jira_status", PyVal.str "open")]
    (initialState []) [] "jira_issues" ["jira_key", "repo_url", "jira_status"]
    ["jira_key", "repo_url"] [PyVal.str "K", PyVal.str "R"]
    (by
      have h : (insert_or_update_record "jira_issues"
          [("jira_key", PyVal.str "K"), ("repo_url", PyVal.str "R"),
           ("jira_status", PyVal.str "open")] (initialState []) []).calls =
          [DbCall.fetch "jira_issues" ["jira_key", "repo_url", "jira_status"]
            ["jira_key", "repo_url"] [PyVal.str "K", PyVal.str "R"],
           DbCall.executeInsert "jira_issues" ["jira_key", "repo_url", "jira_status"]
            [PyVal.str "K", PyVal.str "R", PyVal.str "open"]] := rfl
      rw [h]
      exact List.Mem.head _)

theorem update_writes_exactly_differing_fields_witness :
    ∃ cfg row, table_configs "jira_issues" = some cfg ∧ "jira_issues" = "jira_issues" ∧
      ["jira_key", "repo_url"] = cfg.unique_keys ∧
      fetchFirst
        [("jira_issues",
          [("jira_key", PyVal.str "K"), ("repo_url", PyVal.str "R"),
           ("jira_status", PyVal.str "open")])]
        "jira_issues" cfg.unique_keys [PyVal.str "K", PyVal.str "R"] = some row ∧
      ["jira_status"] = differingFields
        (existingRowOf row
          (select_columns_of
            (clean_record_keys
              [("jira_key", PyVal.str "K"), ("repo_url", PyVal.str "R"),
               ("jira_status", PyVal.str "closed")])
            cfg.excluded_columns cfg.unique_keys))
        (clean_record_keys
          [("jira_key", PyVal.str "K"), ("repo_url", PyVal.str "R"),
           ("jira_status", PyVal.str "closed")])
        cfg.json_columns cfg.excluded_columns :=
  update_writes_exactly_differing_fields "jira_issues"
    [("jira_key", PyVal.str "K"), ("repo_url", PyVal.str "R"),
     ("jira_status", PyVal.str "closed")]
    (initialState
      [("jira_issues",
        [("jira_key", PyVal.str "K"), ("repo_url", PyVal.str "R"),
         ("jira_status", PyVal.str "open")])])
    [] "jira_issues" ["jira_status"] ["closed"] ["jira_key", "repo_url"]
    [PyVal.str "K", PyVal.str "R"]
    (by
      have h : (insert_or_update_record "jira_issues"
          [("jira_key", PyVal.str "K"), ("repo_url", PyVal.str "R"),
           ("jira_status", PyVal.str "closed")]
          (initialState
            [("jira_issues",
              [("jira_key", PyVal.str "K"), ("repo_url", PyVal.str "R"),
               ("jira_status", PyVal.str "open")])]) []).calls =
          [DbCall.fetch "jira_issues" ["jira_key", "repo_url", "jira_status"]
            ["jira_key", "repo_url"] [PyVal.str "K", PyVal.str "R"],
           DbCall.executeUpdate "jira_issues" ["jira_status"] ["closed"]
            ["jira_key", "repo_url"] [PyVal.str "K", PyVal.str "R"]] := rfl
      rw [h]
      exact List.Mem.tail _ (List.Mem.head _))

theorem pyEq_str_refl (s : String) : pyEq (.str s) (.str s) = true := by
  simp [pyEq, pySize, pyEqF]

theorem lookupPairs_mem {row : List (String × PyVal)} {k : String} {v : PyVal}
    (h : lookupPairs row k = some v) : (k, v) ∈ row := by
  induction row with
  | nil => rw [lookupPairs_nil] at h; cases h
  | cons hd tl ih =>
    obtain ⟨k2, v2⟩ := hd
    rw [lookupPairs_cons] at h
    by_cases hk : (k2 == k) = true
    · rw [if_pos hk] at h
      injection h with h
      subst h
      have : k2 = k := by simpa using hk
      subst this
      exact List.mem_cons_self _ _
    · simp only [Bool.not_eq_true] at hk
      rw [hk, if_neg Bool.false_ne_true] at h
      exact List.mem_cons_of_mem _ (ih h)

theorem extractUnique_spec {row : Row} {keys : List String} {vals : List PyVal}
    (h : extractUnique row keys = some vals) :
    ∀ p ∈ keys.zip vals, lookupPairs row p.1 = some p.2 := by
  induction keys generalizing vals with
  | nil =>
    simp only [extractUnique] at h
    injection h with h
    subst h
    intro p hp
    cases hp
  | cons k tl ih =>
    simp only [extractUnique] at h
    cases hl : lookupPairs row k with
    | none => rw [hl] at h; cases h
    | some v =>
      rw [hl] at h
      cases he : extractUnique row tl with
      | none => rw [he] at h; cases h
      | some vs =>
        rw [he] at h
        injection h with h
        subst h
        intro p hp
        rcases List.mem_cons.mp hp with h1 | h2
        · subst h1; exact hl
        · exact ih he p h2

theorem fetchFirst_matches {s : Store} {t : String} {keys : List String}
    {vals : List PyVal} {row : Row} (h : fetchFirst s t keys vals = some row) :
    rowMatches keys vals row = true := by
  unfold fetchFirst at h
  cases hf : s.find? (fun e => e.1 == t && rowMatches keys vals e.2) with
  | none => rw [hf] at h; cases h
  | some e =>
    rw [hf] at h
    injection h with h
    have := List.find?_some hf
    simp only [Bool.and_eq_true] at this
    rw [← h]
    exact this.2

theorem fetchFirst_append_of_none {s : Store} {t : String} {keys : List String}
    {vals : List PyVal} (h : fetchFirst s t keys vals = Option.none) (row : Row)
    (hm : rowMatches keys vals row = true) :
    fetchFirst (s ++ [(t, row)]) t keys vals = some row := by
  unfold fetchFirst at h ⊢
  rw [List.find?_append]
  cases hf : s.find? (fun e => e.1 == t && rowMatches keys vals e.2) with
  | some e => rw [hf] at h; cases h
  | none =>
    simp only [Option.none_or]
    simp [List.find?, hm]

theorem lookup_existingRowOf {selCols : List String} {c : String} (row : Row)
    (h : c ∈ selCols) :
    lookupPairs (existingRowOf row selCols) c = some ((lookupPairs row c).getD .none) := by
  induction selCols with
  | nil => cases h
  | cons hd tl ih =>
    simp only [existingRowOf, List.map_cons]
    rw [lookupPairs_cons]
    by_cases he : (hd == c) = true
    · rw [if_pos he]
      have : hd = c := by simpa using he
      subst this
      rfl
    · simp only [Bool.not_eq_true] at he
      rw [he, if_neg Bool.false_ne_true]
      rcases List.mem_cons.mp h with h1 | h2
      · subst h1; simp at he
      · exact ih h2

theorem any_updateStats (stats : List (String × TableStats)) (t t2 : String)
    (f : TableStats → TableStats) :
    (updateStats stats t f).any (fun e => e.1 == t2) = stats.any (fun e => e.1 == t2) := by
  induction stats with
  | nil => rfl
  | cons hd tl ih =>
    simp only [updateStats, List.map_cons, List.any_cons] at ih ⊢
    by_cases he : (hd.1 == t) = true
    · rw [if_pos he]
      simp only [ih]
    · simp only [Bool.not_eq_true] at he
      rw [he, if_neg Bool.false_ne_true]
      simp only [ih]

theorem nodupKeys_iff (kvs : List (String × PyVal)) :
    nodupKeys kvs = true ↔ (kvs.map Prod.fst).Nodup := by
  induction kvs with
  | nil => simp [nodupKeys]
  | cons hd tl ih =>
    obtain ⟨k, v⟩ := hd
    simp only [nodupKeys, Bool.and_eq_true, Bool.not_eq_true, List.map_cons,
      List.nodup_cons, ih]
    constructor
    · rintro ⟨h1, h2⟩
      refine ⟨fun hm => ?_, h2⟩
      rw [List.mem_map] at hm
      obtain ⟨p, hp, he⟩ := hm
      have : tl.any (fun kv => kv.1 == k) = true := List.any_eq_true.mpr ⟨p, hp, by simp [he]⟩
      rw [this] at h1
      cases h1
    · rintro ⟨h1, h2⟩
      refine ⟨?_, h2⟩
      cases ha : tl.any (fun kv => kv.1 == k) with
      | false => rfl
      | true =>
        obtain ⟨p, hp, he⟩ := List.any_eq_true.mp ha
        exact absurd (List.mem_map.mpr ⟨p, hp, by simpa using he⟩) h1

theorem pyDictInsert_keys (kvs : List (String × PyVal)) (k : String) (v : PyVal) :
    (kvs.any (fun kv => kv.1 == k) = true ∧
      (pyDictInsert kvs k v).map Prod.fst = kvs.map Prod.fst) ∨
    (kvs.any (fun kv => kv.1 == k) = false ∧
      (pyDictInsert kvs k v).map Prod.fst = kvs.map Prod.fst ++ [k]) := by
  unfold pyDictInsert
  by_cases h : kvs.any (fun kv => kv.1 == k) = true
  · left
    refine ⟨h, ?_⟩
    rw [if_pos h, List.map_map]
    apply List.map_congr_left
    intro p _
    show ((if (p.1 == k) = true then (p.1, v) else p)).1 = p.1
    split <;> rfl
  · right
    simp only [Bool.not_eq_true] at h
    refine ⟨h, ?_⟩
    rw [if_neg (by simp [h])]
    simp

theorem pyDictInsert_nodup {kvs : List (String × PyVal)} (k : String) (v : PyVal)
    (h : nodupKeys kvs = true) : nodupKeys (pyDictInsert kvs k v) = true := by
  rw [nodupKeys_iff] at h ⊢
  rcases pyDictInsert_keys kvs k v with ⟨_, he⟩ | ⟨ha, he⟩
  · rw [he]
    exact h
  · rw [he, List.nodup_append]
    refine ⟨h, List.nodup_singleton _, ?_⟩
    intro a hm hb
    simp only [List.mem_singleton] at hb
    rw [List.mem_map] at hm
    obtain ⟨p, hp, hpe⟩ := hm
    have hk : (kvs.any fun kv => kv.1 == a) = true :=
      List.any_eq_true.mpr ⟨p, hp, by simp [hpe]⟩
    rw [hb] at hk
    rw [hk] at ha
    cases ha

theorem wfList_iff (xs : List PyVal) : wfList xs = true ↔ ∀ x ∈ xs, wfVal x = true := by
  induction xs with
  | nil => simp [wfList]
  | cons hd tl ih =>
    simp only [wfList, Bool.and_eq_true, ih]
    constructor
    · rintro ⟨h1, h2⟩ x hm
      rcases List.mem_cons.mp hm with h | h
      · exact h ▸ h1
      · exact h2 x h
    · intro h
      exact ⟨h hd (List.mem_cons_self _ _), fun x hm => h x (List.mem_cons_of_mem _ hm)⟩

theorem wfPairs_iff (kvs : List (String × PyVal)) :
    wfPairs kvs = true ↔ ∀ kv ∈ kvs, wfVal kv.2 = true := by
  induction kvs with
  | nil => simp [wfPairs]
  | cons hd tl ih =>
    obtain ⟨k, v⟩ := hd
    simp only [wfPairs, Bool.and_eq_true, ih]
    constructor
    · rintro ⟨h1, h2⟩ kv hm
      rcases List.mem_cons.mp hm with h | h
      · rw [h]; exact h1
      · exact h2 kv h
    · intro h
      exact ⟨h (k, v) (List.mem_cons_self _ _), fun kv hm => h kv (List.mem_cons_of_mem _ hm)⟩

theorem pyDictInsert_wfPairs {kvs : List (String × PyVal)} (k : String) {v : PyVal}
    (h : wfPairs kvs = true) (hv : wfVal v = true) :
    wfPairs (pyDictInsert kvs k v) = true := by
  rw [wfPairs_iff] at h ⊢
  unfold pyDictInsert
  by_cases ha : kvs.any (fun kv => kv.1 == k) = true
  · rw [if_pos ha]
    intro kv hm
    rw [List.mem_map] at hm
    obtain ⟨p, hp, he⟩ := hm
    by_cases hk : (p.1 == k) = true
    · rw [if_pos hk] at he
      rw [← he]
      exact hv
    · simp only [Bool.not_eq_true] at hk
      rw [hk, if_neg Bool.false_ne_true] at he
      rw [← he]
      exact h p hp
  · rw [if_neg ha]
    intro kv hm
    rcases List.mem_append.mp hm with h1 | h1
    · exact h kv h1
    · simp only [List.mem_singleton] at h1
      rw [h1]
      exact hv

theorem nodupKeys_clean (r : Row) : nodupKeys (clean_record_keys r) = true := by
  unfold clean_record_keys
  suffices h : ∀ acc : Row, nodupKeys acc = true →
      nodupKeys (r.foldl (fun acc kv => pyDictInsert acc (pyStrip kv.1) kv.2) acc) = true by
    exact h [] rfl
  induction r with
  | nil => intro acc h; exact h
  | cons hd tl ih =>
    intro acc h
    exact ih _ (pyDictInsert_nodup _ _ h)

theorem parseNum_int {cs : List Char} {v : PyVal} {rest : List Char}
    (h : parseNum cs = some (v, rest)) : ∃ n, v = .int n := by
  unfold parseNum at h
  rcases cs with _ | ⟨c, rest1⟩
  · cases h
  · dsimp only at h
    by_cases hm : c = Char.ofNat 45 <;>
      simp only [hm, reduceIte] at h <;>
      repeat' split at h
    all_goals try cases h
    all_goals simp_all

theorem parser_wf : ∀ fuel : Nat,
    (∀ cs v rest, parseVal fuel cs = some (v, rest) → wfVal v = true) ∧
    (∀ cs acc v rest, parseObjItems fuel cs acc = some (v, rest) →
      nodupKeys acc = true → wfPairs acc = true → wfVal v = true) ∧
    (∀ cs acc v rest, parseArrItems fuel cs acc = some (v, rest) →
      wfList acc = true → wfVal v = true) := by
  intro fuel
  induction fuel with
  | zero =>
    refine ⟨fun cs v rest h => ?_, fun cs acc v rest h => ?_, fun cs acc v rest h => ?_⟩ <;>
      cases h
  | succ fuel ih =>
    obtain ⟨ih1, ih2, ih3⟩ := ih
    refine ⟨fun cs v rest h => ?_, fun cs acc v rest h hnd hwf => ?_,
      fun cs acc v rest h hacc => ?_⟩
    · unfold parseVal at h
      dsimp only at h
      repeat' split at h
      all_goals try cases h
      all_goals try exact rfl
      all_goals try (exact ih2 _ _ _ _ h rfl rfl)
      all_goals try (exact ih3 _ _ _ _ h rfl)
      all_goals try (rcases Option.map_eq_some'.mp h with ⟨p, hp, hpe⟩
                     simp only [Prod.mk.injEq] at hpe
                     rw [← hpe.1]
                     rfl)
      all_goals (obtain ⟨n, hn⟩ := parseNum_int h
                 rw [hn]
                 rfl)
    · unfold parseObjItems at h
      try dsimp only at h
      repeat' split at h
      all_goals try cases h
      all_goals try exact ih2 _ _ _ _ h (pyDictInsert_nodup _ _ hnd) (pyDictInsert_wfPairs _ hwf (ih1 _ _ _ (by assumption)))
      all_goals (show (nodupKeys _ && wfPairs _) = true
                 rw [pyDictInsert_nodup _ _ hnd, pyDictInsert_wfPairs _ hwf (ih1 _ _ _ (by assumption))]
                 rfl)
    · unfold parseArrItems at h
      try dsimp only at h
      repeat' split at h
      all_goals try cases h
      all_goals try (refine ih3 _ _ _ _ h ?_
                     rw [wfList_iff] at hacc ⊢
                     intro x hm
                     rcases List.mem_cons.mp hm with h1 | h2
                     · (rw [h1]
                        exact ih1 _ _ _ (by assumption))
                     · exact hacc x h2)
      all_goals (show wfList _ = true
                 rw [wfList_iff]
                 intro x hm
                 rw [List.mem_reverse] at hm
                 rcases List.mem_cons.mp hm with h1 | h2
                 · (rw [h1]
                    exact ih1 _ _ _ (by assumption))
                 · (rw [wfList_iff] at hacc
                    exact hacc x h2))

theorem loads_wf {s : String} {v : PyVal} (h : loads s = some v) : wfVal v = true := by
  unfold loads loadsChars at h
  cases hp : parseVal (s.data.length + 1) s.data with
  | none => rw [hp] at h; cases h
  | some p =>
    obtain ⟨v2, rest⟩ := p
    rw [hp] at h
    dsimp only at h
    by_cases hr : skipWs rest = []
    · rw [if_pos hr] at h
      injection h with h
      rw [← h]
      exact (parser_wf _).1 _ _ _ hp
    · rw [if_neg hr] at h
      cases h

theorem wf_normalize (s : String) : wfVal (normalize_json_value s) = true := by
  unfold normalize_json_value
  dsimp only
  by_cases h1 : pyStrip s = ""
  · rw [if_pos h1]
    rfl
  · rw [if_neg h1]
    cases h2 : loads (pyStrip s) with
    | some v => exact loads_wf h2
    | none =>
      cases h3 : loads (squoteToDquote (pyStrip s)) with
      | some v => exact loads_wf h3
      | none => rfl

theorem pyEq_ensure_str_refl (s : String) :
    pyEq (ensure_parsed_json (.str s)) (ensure_parsed_json (.str s)) = true :=
  pyEq_refl_of_wf _ (wf_normalize s)

theorem lookupPairs_pyDictInsert_self (r : List (String × PyVal)) (k : String)
    (w : PyVal) : lookupPairs (pyDictInsert r k w) k = some w := by
  induction r with
  | nil => simp [pyDictInsert, lookupPairs, List.find?]
  | cons hd tl ih =>
    obtain ⟨k2, v2⟩ := hd
    unfold pyDictInsert
    by_cases ha : ((k2, v2) :: tl).any (fun kv => kv.1 == k) = true
    · rw [if_pos ha]
      simp only [List.map_cons]
      by_cases hk : (k2 == k) = true
      · rw [if_pos hk]
        rw [lookupPairs_cons, if_pos hk]
      · simp only [Bool.not_eq_true] at hk
        rw [hk, if_neg Bool.false_ne_true]
        rw [lookupPairs_cons, hk, if_neg Bool.false_ne_true]
        have ha2 : tl.any (fun kv => kv.1 == k) = true := by
          simp only [List.any_cons, hk, Bool.false_or] at ha
          exact ha
        have := ih
        unfold pyDictInsert at this
        rw [if_pos ha2] at this
        exact this
    · rw [if_neg ha]
      simp only [Bool.not_eq_true, List.any_cons, Bool.or_eq_false_iff] at ha
      rw [List.cons_append, lookupPairs_cons, ha.1, if_neg Bool.false_ne_true]
      have ha2 : tl.any (fun kv => kv.1 == k) = false := ha.2
      have := ih
      unfold pyDictInsert at this
      rw [ha2, if_neg Bool.false_ne_true] at this
      exact this

theorem lookupPairs_map_replace (tl : List (String × PyVal)) {k c : String}
    (w : PyVal) (hne : (k == c) = false) :
    lookupPairs (tl.map (fun kv => if (kv.1 == k) = true then (kv.1, w) else kv)) c =
      lookupPairs tl c := by
  induction tl with
  | nil => rfl
  | cons hd tl2 ih =>
    obtain ⟨k3, v3⟩ := hd
    simp only [List.map_cons]
    by_cases h3 : (k3 == k) = true
    · rw [if_pos h3]
      have h3e : k3 = k := by simpa using h3
      subst h3e
      rw [lookupPairs_cons, lookupPairs_cons, hne, if_neg Bool.false_ne_true,
        if_neg Bool.false_ne_true]
      exact ih
    · simp only [Bool.not_eq_true] at h3
      rw [h3, if_neg Bool.false_ne_true]
      rw [lookupPairs_cons, lookupPairs_cons]
      by_cases hc : (k3 == c) = true
      · rw [if_pos hc, if_pos hc]
      · simp only [Bool.not_eq_true] at hc
        rw [hc, if_neg Bool.false_ne_true, if_neg Bool.false_ne_true]
        exact ih

theorem lookupPairs_append_single (r : List (String × PyVal)) {k c : String}
    (w : PyVal) (hne : (k == c) = false) :
    lookupPairs (r ++ [(k, w)]) c = lookupPairs r c := by
  unfold lookupPairs
  rw [List.find?_append]
  cases hf : r.find? (fun kv => kv.1 == c) with
  | some e => simp
  | none => simp [List.find?, hne]

theorem lookupPairs_pyDictInsert_other (r : List (String × PyVal)) {k c : String}
    (w : PyVal) (hne : (k == c) = false) :
    lookupPairs (pyDictInsert r k w) c = lookupPairs r c := by
  unfold pyDictInsert
  by_cases ha : r.any (fun kv => kv.1 == k) = true
  · rw [if_pos ha]
    exact lookupPairs_map_replace r w hne
  · rw [if_neg ha]
    exact lookupPairs_append_single r w hne

theorem lookupPairs_applyUps_not_mem {ups : List (String × String)} {c : String}
    (row : Row) (h : ∀ kv ∈ ups, (kv.1 == c) = false) :
    lookupPairs (applyUps row ups) c = lookupPairs row c := by
  induction ups generalizing row with
  | nil => rfl
  | cons hd tl ih =>
    unfold applyUps at ih ⊢
    simp only [List.foldl_cons]
    rw [ih _ (fun kv hm => h kv (List.mem_cons_of_mem _ hm))]
    exact lookupPairs_pyDictInsert_other _ _ (h hd (List.mem_cons_self _ _))

/-- Value bound to a column in the SET assignments of an update. -/
def upsFind (ups : List (String × String)) (c : String) : Option String :=
  (ups.find? (fun kv => kv.1 == c)).map Prod.snd

theorem lookupPairs_applyUps {ups : List (String × String)} {c : String} {sv : String}
    (row : Row) (hnd : (ups.map Prod.fst).Nodup) (h : upsFind ups c = some sv) :
    lookupPairs (applyUps row ups) c = some (.str sv) := by
  induction ups generalizing row with
  | nil => simp [upsFind, List.find?] at h
  | cons hd tl ih =>
    obtain ⟨k, s0⟩ := hd
    simp only [List.map_cons, List.nodup_cons] at hnd
    unfold applyUps
    simp only [List.foldl_cons]
    by_cases hk : (k == c) = true
    · have hkc : k = c := by simpa using hk
      subst hkc
      unfold upsFind at h
      rw [List.find?_cons_of_pos _ (by simp)] at h
      simp only [Option.map_some'] at h
      injection h with h
      subst h
      show lookupPairs (applyUps (pyDictInsert row k (PyVal.str s0)) tl) k =
        some (PyVal.str s0)
      rw [lookupPairs_applyUps_not_mem _ (fun kv hm => ?_)]
      · exact lookupPairs_pyDictInsert_self _ _ _
      · rw [beq_eq_false_iff_ne]
        intro he
        exact hnd.1 (List.mem_map.mpr ⟨kv, hm, he⟩)
    · unfold upsFind at h
      rw [List.find?_cons_of_neg _ (by simpa using hk)] at h
      exact ih _ hnd.2 h

theorem upsFind_eq_none {ups : List (String × String)} {c : String}
    (h : ∀ kv ∈ ups, (kv.1 == c) = false) : upsFind ups c = Option.none := by
  unfold upsFind
  rw [List.find?_eq_none.mpr]
  · rfl
  · intro kv hm
    simp only [h kv hm]
    exact Bool.false_ne_true

theorem filterMap_keys_sublist {α : Type} (f : (String × PyVal) → Option (String × α))
    (l : List (String × PyVal)) (hf : ∀ kv p, f kv = some p → p.1 = kv.1) :
    ((l.filterMap f).map Prod.fst).Sublist (l.map Prod.fst) := by
  induction l with
  | nil => simp
  | cons hd tl ih =>
    rw [List.filterMap_cons]
    cases he : f hd with
    | none =>
      simp only [List.map_cons]
      exact ih.cons _
    | some p =>
      simp only [List.map_cons]
      rw [hf hd p he]
      exact ih.cons₂ _

theorem update_fields_keys_nodup {cleaned existing : Row} {jc xc : List String}
    (hnd : nodupKeys cleaned = true) :
    ((update_fields cleaned existing jc xc).map Prod.fst).Nodup := by
  rw [nodupKeys_iff] at hnd
  refine List.Nodup.sublist ?_ hnd
  unfold update_fields
  refine filterMap_keys_sublist _ _ (fun kv p he => ?_)
  dsimp only at he
  repeat' split at he
  all_goals try cases he
  all_goals rfl

/-- The per-column difference test of the differ and update loops. -/
def fieldDiffTest (existing : Row) (c : String) (v : PyVal) (jc : List String) : Bool :=
  if jc.contains c then
    !pyEq (ensure_parsed_json (columnExisting existing c))
      (ensure_parsed_json (.str (serialize_field v)))
  else !pyEq (columnExisting existing c) (.str (serialize_field v))

theorem upsFind_cons_ne {q : String × String} {rest : List (String × String)}
    {c : String} (h : (q.1 == c) = false) : upsFind (q :: rest) c = upsFind rest c := by
  unfold upsFind
  rw [List.find?_cons_of_neg _ (by simp only [h]; exact Bool.false_ne_true)]

theorem update_fields_find {cleaned : Row} (existing : Row) (jc : List String)
    {xc : List String} {c : String}
    {v : PyVal} (hnd : nodupKeys cleaned = true)
    (hl : lookupPairs cleaned c = some v) (hx : xc.contains c = false) :
    upsFind (update_fields cleaned existing jc xc) c =
      (if fieldDiffTest existing c v jc then some (serialize_field v) else Option.none) := by
  induction cleaned with
  | nil => rw [lookupPairs_nil] at hl; cases hl
  | cons hd tl ih =>
    obtain ⟨k2, v2⟩ := hd
    rw [lookupPairs_cons] at hl
    simp only [nodupKeys, Bool.and_eq_true, Bool.not_eq_true] at hnd
    by_cases hk : (k2 == c) = true
    · rw [if_pos hk] at hl
      injection hl with hl
      subst hl
      have hkc : k2 = c := by simpa using hk
      subst hkc
      have htl : ∀ kv ∈ update_fields tl existing jc xc, (kv.1 == k2) = false := by
        intro kv hm
        rw [beq_eq_false_iff_ne]
        intro he
        have hmem : kv.1 ∈ (update_fields tl existing jc xc).map Prod.fst :=
          List.mem_map.mpr ⟨kv, hm, rfl⟩
        have hsub : ((update_fields tl existing jc xc).map Prod.fst).Sublist
            (tl.map Prod.fst) := by
          unfold update_fields
          refine filterMap_keys_sublist _ _ (fun kv p hee => ?_)
          dsimp only at hee
          repeat' split at hee
          all_goals try cases hee
          all_goals rfl
        have hmem2 : kv.1 ∈ tl.map Prod.fst := hsub.mem hmem
        rw [he] at hmem2
        rw [List.mem_map] at hmem2
        obtain ⟨p, hp, hpe⟩ := hmem2
        have hany : (tl.any fun q => q.1 == k2) = true :=
          List.any_eq_true.mpr ⟨p, hp, by simp [hpe]⟩
        have hno : (tl.any fun q => q.1 == k2) = false := by
          have h0 := hnd.1
          rwa [Bool.not_eq_true'] at h0
        rw [hany] at hno
        cases hno
      simp only [update_fields, List.filterMap_cons]
      rw [if_neg (by simp only [hx]; exact Bool.false_ne_true)]
      unfold fieldDiffTest
      by_cases hj : jc.contains k2 = true
      · by_cases hde : pyEq (ensure_parsed_json (columnExisting existing k2))
            (ensure_parsed_json (.str (serialize_field v2))) = true
        · simp only [hj, hde, if_true, Bool.not_true, Bool.false_eq_true, if_false]
          exact upsFind_eq_none htl
        · simp only [Bool.not_eq_true] at hde
          simp only [hj, hde, if_true, Bool.not_false, Bool.false_eq_true, if_false]
          unfold upsFind
          rw [List.find?_cons_of_pos _ (by simp)]
          rfl
      · simp only [Bool.not_eq_true] at hj
        by_cases hde : pyEq (columnExisting existing k2) (.str (serialize_field v2)) = true
        · simp only [hj, hde, Bool.not_true, Bool.false_eq_true, if_false]
          exact upsFind_eq_none htl
        · simp only [Bool.not_eq_true] at hde
          simp only [hj, hde, Bool.not_false, if_true, Bool.false_eq_true, if_false]
          unfold upsFind
          rw [List.find?_cons_of_pos _ (by simp)]
          rfl
    · simp only [Bool.not_eq_true] at hk
      rw [hk, if_neg Bool.false_ne_true] at hl
      have ihr := ih hnd.2 hl
      simp only [update_fields, List.filterMap_cons]
      rw [← ihr]
      split
      · rfl
      · rename_i b heq
        repeat' split at heq
        all_goals try cases heq
        all_goals exact upsFind_cons_ne (by simpa using hk)

/-- The state after the two total counters were incremented (the prefix
every configured-table reconcile performs). -/
def bumpTotals (st : InserterState) (t : String) : InserterState :=
  { st with total_records := st.total_records + 1,
            table_stats :=
              (updateStats st.table_stats t (fun s => { s with total := s.total + 1 })) }

theorem reconcile_insert_run (t : String) (cfg : TableConfig) (r : Row)
    (st : InserterState) (wvals : List PyVal)
    (hv : validate_table_name t = true)
    (hstats : st.table_stats.any (fun e => e.1 == t) = true)
    (hcfg : table_configs t = some cfg)
    (hwv : extractUnique (clean_record_keys r) cfg.unique_keys = some wvals)
    (hfetch : fetchFirst st.store t cfg.unique_keys wvals = Option.none) :
    insert_or_update_record t r st [] =
      ⟨Option.none,
        bumpIns { bumpTotals st t with
          store := applyInsert st.store t (insert_fields_vals (clean_record_keys r)
            cfg.json_columns cfg.excluded_columns) } t,
        [],
        [DbCall.fetch t (select_columns_of (clean_record_keys r) cfg.excluded_columns
            cfg.unique_keys) cfg.unique_keys wvals,
         DbCall.executeInsert t
          ((insert_fields_vals (clean_record_keys r) cfg.json_columns
            cfg.excluded_columns).map Prod.fst)
          ((insert_fields_vals (clean_record_keys r) cfg.json_columns
            cfg.excluded_columns).map Prod.snd)]⟩ := by
  unfold insert_or_update_record bumpTableTotal reconcileWithConfig
  simp [hv, hstats, hcfg, hwv, hfetch, popOracle, bumpTotals]

theorem reconcile_skip_run (t : String) (cfg : TableConfig) (r : Row)
    (st : InserterState) (wvals : List PyVal) (row : Row)
    (hv : validate_table_name t = true)
    (hstats : st.table_stats.any (fun e => e.1 == t) = true)
    (hcfg : table_configs t = some cfg)
    (hwv : extractUnique (clean_record_keys r) cfg.unique_keys = some wvals)
    (hfetch : fetchFirst st.store t cfg.unique_keys wvals = some row)
    (hdiff : records_differ
      (existingRowOf row (select_columns_of (clean_record_keys r) cfg.excluded_columns
        cfg.unique_keys))
      (clean_record_keys r) cfg.json_columns cfg.excluded_columns = false) :
    insert_or_update_record t r st [] =
      ⟨Option.none, bumpSkip (bumpTotals st t) t, [],
        [DbCall.fetch t (select_columns_of (clean_record_keys r) cfg.excluded_columns
          cfg.unique_keys) cfg.unique_keys wvals]⟩ := by
  unfold insert_or_update_record bumpTableTotal reconcileWithConfig
  simp [hv, hstats, hcfg, hwv, hfetch, hdiff, popOracle, bumpTotals]

theorem reconcile_update_run (t : String) (cfg : TableConfig) (r : Row)
    (st : InserterState) (wvals : List PyVal) (row : Row)
    (hv : validate_table_name t = true)
    (hstats : st.table_stats.any (fun e => e.1 == t) = true)
    (hcfg : table_configs t = some cfg)
    (hwv : extractUnique (clean_record_keys r) cfg.unique_keys = some wvals)
    (hfetch : fetchFirst st.store t cfg.unique_keys wvals = some row)
    (hdiff : records_differ
      (existingRowOf row (select_columns_of (clean_record_keys r) cfg.excluded_columns
        cfg.unique_keys))
      (clean_record_keys r) cfg.json_columns cfg.excluded_columns = true) :
    insert_or_update_record t r st [] =
      (let ups := update_fields (clean_record_keys r)
        (existingRowOf row (select_columns_of (clean_record_keys r) cfg.excluded_columns
          cfg.unique_keys)) cfg.json_columns cfg.excluded_columns
      ⟨Option.none,
        bumpUpd { bumpTotals st t with
          store := applyUpdate st.store t cfg.unique_keys wvals ups } t,
        [],
        [DbCall.fetch t (select_columns_of (clean_record_keys r) cfg.excluded_columns
            cfg.unique_keys) cfg.unique_keys wvals,
         DbCall.executeUpdate t (ups.map Prod.fst) (ups.map Prod.snd)
          cfg.unique_keys wvals]⟩) := by
  have hne : (update_fields (clean_record_keys r)
      (existingRowOf row (select_columns_of (clean_record_keys r) cfg.excluded_columns
        cfg.unique_keys)) cfg.json_columns cfg.excluded_columns).isEmpty = false := by
    have := records_differ_iff
      (existingRowOf row (select_columns_of (clean_record_keys r) cfg.excluded_columns
        cfg.unique_keys)) (clean_record_keys r) cfg.json_columns cfg.excluded_columns
    rw [hdiff] at this
    cases he : (update_fields (clean_record_keys r)
        (existingRowOf row (select_columns_of (clean_record_keys r) cfg.excluded_columns
          cfg.unique_keys)) cfg.json_columns cfg.excluded_columns).isEmpty
    · rfl
    · rw [he] at this
      cases this
  unfold insert_or_update_record bumpTableTotal reconcileWithConfig
  simp [hv, hstats, hcfg, hwv, hfetch, hdiff, hne, popOracle, bumpTotals]

theorem records_differ_eq_false {existing cleaned : Row} {jc xc : List String}
    (h : ∀ kv ∈ cleaned, xc.contains kv.1 = false →
      fieldDiffTest existing kv.1 kv.2 jc = false) :
    records_differ existing cleaned jc xc = false := by
  unfold records_differ
  rw [List.any_eq_false]
  intro kv hm
  dsimp only
  by_cases hx : xc.contains kv.1 = true
  · rw [if_pos hx]
    exact Bool.false_ne_true
  · simp only [Bool.not_eq_true] at hx
    rw [if_neg (by rw [hx]; exact Bool.false_ne_true)]
    have ht := h kv hm hx
    unfold fieldDiffTest at ht
    by_cases hj : jc.contains kv.1 = true
    · rw [if_pos hj] at ht ⊢
      rw [ht]
      exact Bool.false_ne_true
    · rw [if_neg hj] at ht ⊢
      rw [ht]
      exact Bool.false_ne_true

theorem lookup_insert_fields {cleaned : Row} (jc : List String) {xc : List String}
    {c : String} {v : PyVal} (hl : lookupPairs cleaned c = some v)
    (hx : xc.contains c = false) :
    lookupPairs (insert_fields_vals cleaned jc xc) c =
      some (if jc.contains c then .str (serialize_field v) else v) := by
  induction cleaned with
  | nil => rw [lookupPairs_nil] at hl; cases hl
  | cons hd tl ih =>
    obtain ⟨k2, v2⟩ := hd
    rw [lookupPairs_cons] at hl
    unfold insert_fields_vals
    rw [List.filterMap_cons]
    by_cases hk : (k2 == c) = true
    · rw [if_pos hk] at hl
      injection hl with hl
      subst hl
      have hkc : k2 = c := by simpa using hk
      subst hkc
      by_cases hj : jc.contains k2 = true
      · simp only [hx, Bool.false_eq_true, if_false, hj, if_true]
        rw [lookupPairs_cons, if_pos (by simp)]
      · simp only [Bool.not_eq_true] at hj
        simp only [hx, Bool.false_eq_true, if_false, hj]
        rw [lookupPairs_cons, if_pos (by simp)]
    · have hkf : (k2 == c) = false := by
        cases hb : (k2 == c)
        · rfl
        · exact absurd hb hk
      rw [hkf, if_neg Bool.false_ne_true] at hl
      cases hxk : xc.contains k2 with
      | true =>
        simp only [hxk, if_true]
        exact ih hl
      | false =>
        cases hjk : jc.contains k2 with
        | true =>
          simp only [hxk, Bool.false_eq_true, if_false, hjk, if_true]
          rw [lookupPairs_cons, hkf, if_neg Bool.false_ne_true]
          exact ih hl
        | false =>
          simp only [hxk, Bool.false_eq_true, if_false, hjk]
          rw [lookupPairs_cons, hkf, if_neg Bool.false_ne_true]
          exact ih hl

theorem rowMatches_forall {keys : List String} {vals : List PyVal} {row : Row}
    (h : rowMatches keys vals row = true) :
    ∀ p ∈ keys.zip vals, ∃ w, lookupPairs row p.1 = some w ∧ pyEq w p.2 = true := by
  unfold rowMatches at h
  rw [List.all_eq_true] at h
  intro p hp
  have hq := h p hp
  cases hl : lookupPairs row p.1 with
  | none => rw [hl] at hq; cases hq
  | some w =>
    rw [hl] at hq
    exact ⟨w, rfl, hq⟩

theorem rowMatches_of_forall {keys : List String} {vals : List PyVal} {row : Row}
    (h : ∀ p ∈ keys.zip vals, ∃ w, lookupPairs row p.1 = some w ∧ pyEq w p.2 = true) :
    rowMatches keys vals row = true := by
  unfold rowMatches
  rw [List.all_eq_true]
  intro p hp
  obtain ⟨w, hw, he⟩ := h p hp
  rw [hw]
  exact he

theorem upsFind_none_forall {ups : List (String × String)} {c : String}
    (h : upsFind ups c = Option.none) : ∀ kv ∈ ups, (kv.1 == c) = false := by
  unfold upsFind at h
  cases hf : ups.find? (fun kv => kv.1 == c) with
  | some e => rw [hf] at h; cases h
  | none =>
    intro kv hm
    have hq := List.find?_eq_none.mp hf kv hm
    simpa using hq

theorem fetchFirst_applyUpdate {s : Store} {t : String} {keys : List String}
    {vals : List PyVal} {row : Row} (ups : List (String × String))
    (hf : fetchFirst s t keys vals = some row)
    (hm2 : rowMatches keys vals (applyUps row ups) = true) :
    fetchFirst (applyUpdate s t keys vals ups) t keys vals =
      some (applyUps row ups) := by
  unfold fetchFirst at hf
  unfold fetchFirst applyUpdate
  induction s with
  | nil => simp [List.find?] at hf
  | cons e tl ih =>
    rw [List.map_cons]
    by_cases hp : (e.1 == t && rowMatches keys vals e.2) = true
    · rw [List.find?_cons_of_pos _ (by exact hp)] at hf
      simp only [Option.map_some'] at hf
      injection hf with hf
      rw [if_pos hp]
      have hpt : (e.1 == t) = true := by
        have hq := hp
        rw [Bool.and_eq_true] at hq
        exact hq.1
      rw [hf]
      rw [List.find?_cons_of_pos _ (by show (_ && _) = true; rw [Bool.and_eq_true]; exact ⟨hpt, hm2⟩)]
      rfl
    · rw [List.find?_cons_of_neg _ (by exact hp)] at hf
      rw [if_neg hp, List.find?_cons_of_neg _ (by exact hp)]
      exact ih hf

theorem rowMatches_insert_fields {cleaned : Row} {uk jc xc : List String}
    {wvals : List PyVal}
    (hv : ∀ p ∈ uk.zip wvals, lookupPairs cleaned p.1 = some p.2)
    (hxz : ∀ p ∈ uk.zip wvals, xc.contains p.1 = false)
    (hjz : ∀ p ∈ uk.zip wvals, jc.contains p.1 = false)
    (hrz : ∀ p ∈ uk.zip wvals, pyEq p.2 p.2 = true) :
    rowMatches uk wvals (insert_fields_vals cleaned jc xc) = true := by
  refine rowMatches_of_forall (fun p hp => ?_)
  have hl := lookup_insert_fields jc (hv p hp) (hxz p hp)
  rw [hjz p hp] at hl
  simp only [Bool.false_eq_true, if_false] at hl
  exact ⟨p.2, hl, hrz p hp⟩

theorem insert_branch_diff_false {cleaned : Row} {jc xc uk : List String}
    (hnd : nodupKeys cleaned = true)
    (hstr : ∀ kv ∈ cleaned, xc.contains kv.1 = false → jc.contains kv.1 = false →
      ∃ s, kv.2 = PyVal.str s) :
    records_differ
      (existingRowOf (insert_fields_vals cleaned jc xc)
        (select_columns_of cleaned xc uk))
      cleaned jc xc = false := by
  refine records_differ_eq_false (fun kv hm hx => ?_)
  have hmemsel : kv.1 ∈ select_columns_of cleaned xc uk := by
    rw [mem_select_columns]
    exact Or.inl ⟨List.mem_map.mpr ⟨kv, hm, rfl⟩, by rw [hx]; exact Bool.false_ne_true⟩
  have hlk : lookupPairs cleaned kv.1 = some kv.2 := lookupPairs_self_of_nodup hnd kv hm
  have hins := lookup_insert_fields jc hlk hx
  have hex : columnExisting
      (existingRowOf (insert_fields_vals cleaned jc xc) (select_columns_of cleaned xc uk))
      kv.1 = (if jc.contains kv.1 then PyVal.str (serialize_field kv.2) else kv.2) := by
    unfold columnExisting
    rw [lookup_existingRowOf _ hmemsel, hins]
    rfl
  unfold fieldDiffTest
  by_cases hj : jc.contains kv.1 = true
  · rw [if_pos hj, hex, if_pos hj, pyEq_ensure_str_refl]
    rfl
  · rw [if_neg hj, hex, if_neg hj]
    have hjf : jc.contains kv.1 = false := by
      cases hb : jc.contains kv.1
      · rfl
      · exact absurd hb hj
    obtain ⟨s, hs⟩ := hstr kv hm hx hjf
    rw [hs]
    show (!pyEq (.str s) (.str (serialize_field (PyVal.str s)))) = false
    rw [show serialize_field (PyVal.str s) = s from rfl, pyEq_str_refl]
    rfl

theorem rowMatches_applyUps_update {cleaned existing row : Row}
    {uk jc xc : List String} {wvals : List PyVal}
    (hnd : nodupKeys cleaned = true)
    (hm : rowMatches uk wvals row = true)
    (hv : ∀ p ∈ uk.zip wvals, lookupPairs cleaned p.1 = some p.2)
    (hxz : ∀ p ∈ uk.zip wvals, xc.contains p.1 = false)
    (hsz : ∀ p ∈ uk.zip wvals, ∃ s, p.2 = PyVal.str s) :
    rowMatches uk wvals
      (applyUps row (update_fields cleaned existing jc xc)) = true := by
  refine rowMatches_of_forall (fun p hp => ?_)
  have hfind := update_fields_find existing jc hnd (hv p hp) (hxz p hp)
  by_cases ht : fieldDiffTest existing p.1 p.2 jc = true
  · rw [if_pos ht] at hfind
    have hlook := lookupPairs_applyUps row (update_fields_keys_nodup hnd) hfind
    refine ⟨_, hlook, ?_⟩
    obtain ⟨s, hs⟩ := hsz p hp
    rw [hs]
    show pyEq (.str (serialize_field (PyVal.str s))) (PyVal.str s) = true
    rw [show serialize_field (PyVal.str s) = s from rfl]
    exact pyEq_str_refl s
  · rw [if_neg ht] at hfind
    rw [lookupPairs_applyUps_not_mem row (upsFind_none_forall hfind)]
    exact rowMatches_forall hm p hp

theorem update_branch_diff_false {cleaned row : Row} {jc xc uk : List String}
    (hnd : nodupKeys cleaned = true) :
    records_differ
      (existingRowOf
        (applyUps row (update_fields cleaned
          (existingRowOf row (select_columns_of cleaned xc uk)) jc xc))
        (select_columns_of cleaned xc uk))
      cleaned jc xc = false := by
  refine records_differ_eq_false (fun kv hm hx => ?_)
  have hmemsel : kv.1 ∈ select_columns_of cleaned xc uk := by
    rw [mem_select_columns]
    exact Or.inl ⟨List.mem_map.mpr ⟨kv, hm, rfl⟩, by rw [hx]; exact Bool.false_ne_true⟩
  have hlk : lookupPairs cleaned kv.1 = some kv.2 := lookupPairs_self_of_nodup hnd kv hm
  have hfind := update_fields_find
    (existingRowOf row (select_columns_of cleaned xc uk)) jc hnd hlk hx
  by_cases ht : fieldDiffTest (existingRowOf row (select_columns_of cleaned xc uk))
      kv.1 kv.2 jc = true
  · rw [if_pos ht] at hfind
    have hlook := lookupPairs_applyUps row (update_fields_keys_nodup hnd) hfind
    have hex : columnExisting
        (existingRowOf
          (applyUps row (update_fields cleaned
            (existingRowOf row (select_columns_of cleaned xc uk)) jc xc))
          (select_columns_of cleaned xc uk)) kv.1 =
        PyVal.str (serialize_field kv.2) := by
      unfold columnExisting
      rw [lookup_existingRowOf _ hmemsel, hlook]
      rfl
    unfold fieldDiffTest
    by_cases hj : jc.contains kv.1 = true
    · rw [if_pos hj, hex, pyEq_ensure_str_refl]
      rfl
    · rw [if_neg hj, hex, pyEq_str_refl]
      rfl
  · rw [if_neg ht] at hfind
    have hun := lookupPairs_applyUps_not_mem row (upsFind_none_forall hfind)
    have hex : columnExisting
        (existingRowOf
          (applyUps row (update_fields cleaned
            (existingRowOf row (select_columns_of cleaned xc uk)) jc xc))
          (select_columns_of cleaned xc uk)) kv.1 =
        columnExisting (existingRowOf row (select_columns_of cleaned xc uk)) kv.1 := by
      unfold columnExisting
      rw [lookup_existingRowOf _ hmemsel, hun, lookup_existingRowOf _ hmemsel]
    simp only [Bool.not_eq_true] at ht
    unfold fieldDiffTest at ht ⊢
    rw [hex]
    exact ht

/-- C2: amended.  For a valid configured table whose unique keys are neither
excluded nor JSON columns, and whose cleaned record holds string values in
every non-excluded non-JSON column, re-reconciling the same record against
the state produced by the first pass succeeds and resolves to Skipped: the
skip counter grows by one while the insertion and update counters, and the
store, are unchanged, and the only storage call of the second pass is the
existence fetch.  (The string-value hypothesis is necessary: see the
counterexample, where an integer column makes the second pass an Update.) -/
theorem second_pass_skipped_amended (t : String) (cfg : TableConfig) (r : Row)
    (st : InserterState) (wvals : List PyVal)
    (hv : validate_table_name t = true)
    (hstats : st.table_stats.any (fun e => e.1 == t) = true)
    (hcfg : table_configs t = some cfg)
    (hwv : extractUnique (clean_record_keys r) cfg.unique_keys = some wvals)
    (hxk : ∀ k ∈ cfg.unique_keys, cfg.excluded_columns.contains k = false)
    (hjk : ∀ k ∈ cfg.unique_keys, cfg.json_columns.contains k = false)
    (hstr : ∀ kv ∈ clean_record_keys r, cfg.excluded_columns.contains kv.1 = false →
      cfg.json_columns.contains kv.1 = false → ∃ s, kv.2 = PyVal.str s) :
    (insert_or_update_record t r
        (insert_or_update_record t r st []).state []).err = Option.none ∧
    (insert_or_update_record t r
        (insert_or_update_record t r st []).state []).state.total_skips =
      (insert_or_update_record t r st []).state.total_skips + 1 ∧
    (insert_or_update_record t r
        (insert_or_update_record t r st []).state []).state.total_insertions =
      (insert_or_update_record t r st []).state.total_insertions ∧
    (insert_or_update_record t r
        (insert_or_update_record t r st []).state []).state.total_updates =
      (insert_or_update_record t r st []).state.total_updates ∧
    (insert_or_update_record t r
        (insert_or_update_record t r st []).state []).state.store =
      (insert_or_update_record t r st []).state.store ∧
    (insert_or_update_record t r
        (insert_or_update_record t r st []).state []).calls =
      [DbCall.fetch t (select_columns_of (clean_record_keys r) cfg.excluded_columns
        cfg.unique_keys) cfg.unique_keys wvals] := by
  set cl := clean_record_keys r with hcl
  set uk := cfg.unique_keys with huk
  set xc := cfg.excluded_columns with hxc
  set jc := cfg.json_columns with hjc
  have hnd : nodupKeys cl = true := nodupKeys_clean r
  have hzl := extractUnique_spec hwv
  have hzx : ∀ p ∈ uk.zip wvals, xc.contains p.1 = false := by
    intro p hp
    obtain ⟨k, v⟩ := p
    exact hxk k (List.of_mem_zip hp).1
  have hzj : ∀ p ∈ uk.zip wvals, jc.contains p.1 = false := by
    intro p hp
    obtain ⟨k, v⟩ := p
    exact hjk k (List.of_mem_zip hp).1
  have hzs : ∀ p ∈ uk.zip wvals, ∃ s, p.2 = PyVal.str s := by
    intro p hp
    exact hstr p (lookupPairs_mem (hzl p hp)) (hzx p hp) (hzj p hp)
  have hzr : ∀ p ∈ uk.zip wvals, pyEq p.2 p.2 = true := by
    intro p hp
    obtain ⟨s, hs⟩ := hzs p hp
    rw [hs]
    exact pyEq_str_refl s
  cases hfetch : fetchFirst st.store t uk wvals with
  | none =>
    have h1 := reconcile_insert_run t cfg r st wvals hv hstats hcfg hwv hfetch
    have hs1 : (insert_or_update_record t r st []).state =
        bumpIns { bumpTotals st t with store := applyInsert st.store t (insert_fields_vals cl jc xc) } t := by
      rw [h1]
    have hstats1 : (bumpIns { bumpTotals st t with store := applyInsert st.store t (insert_fields_vals cl jc xc) } t).table_stats.any
        (fun e => e.1 == t) = true := by
      simp only [bumpIns, bumpTotals]
      rw [any_updateStats, any_updateStats]
      exact hstats
    have hmatch : rowMatches uk wvals (insert_fields_vals cl jc xc) = true :=
      rowMatches_insert_fields hzl hzx hzj hzr
    have hfetch1 : fetchFirst ((bumpIns { bumpTotals st t with store := applyInsert st.store t (insert_fields_vals cl jc xc) } t).store)
        t uk wvals = some (insert_fields_vals cl jc xc) := by
      show fetchFirst (applyInsert st.store t (insert_fields_vals cl jc xc)) t uk
        wvals = _
      unfold applyInsert
      exact fetchFirst_append_of_none hfetch _ hmatch
    have hdiff1 : records_differ
        (existingRowOf (insert_fields_vals cl jc xc) (select_columns_of cl xc uk))
        cl jc xc = false :=
      insert_branch_diff_false hnd hstr
    have h2 := reconcile_skip_run t cfg r
      (bumpIns { bumpTotals st t with store := applyInsert st.store t (insert_fields_vals cl jc xc) } t)
      wvals (insert_fields_vals cl jc xc) hv hstats1 hcfg hwv hfetch1 hdiff1
    rw [hs1, h2]
    exact ⟨rfl, rfl, rfl, rfl, rfl, rfl⟩
  | some row =>
    by_cases hdiff : records_differ (existingRowOf row (select_columns_of cl xc uk))
        cl jc xc = true
    · have h1 := reconcile_update_run t cfg r st wvals row hv hstats hcfg hwv hfetch
        hdiff
      set ups := update_fields cl (existingRowOf row (select_columns_of cl xc uk))
        jc xc with hups
      have hs1 : (insert_or_update_record t r st []).state =
          bumpUpd { bumpTotals st t with store := applyUpdate st.store t uk wvals ups } t := by
        rw [h1]
      have hstats1 : (bumpUpd { bumpTotals st t with store := applyUpdate st.store t uk wvals ups } t).table_stats.any
          (fun e => e.1 == t) = true := by
        simp only [bumpUpd, bumpTotals]
        rw [any_updateStats, any_updateStats]
        exact hstats
      have hm2 : rowMatches uk wvals (applyUps row ups) = true :=
        rowMatches_applyUps_update hnd (fetchFirst_matches hfetch) hzl hzx hzs
      have hfetch1 : fetchFirst ((bumpUpd { bumpTotals st t with store := applyUpdate st.store t uk wvals ups } t).store)
          t uk wvals = some (applyUps row ups) := by
        show fetchFirst (applyUpdate st.store t uk wvals ups) t uk wvals = _
        exact fetchFirst_applyUpdate _ hfetch hm2
      have hdiff1 : records_differ
          (existingRowOf (applyUps row ups) (select_columns_of cl xc uk))
          cl jc xc = false :=
        update_branch_diff_false hnd
      have h2 := reconcile_skip_run t cfg r
        (bumpUpd { bumpTotals st t with store := applyUpdate st.store t uk wvals ups } t)
        wvals (applyUps row ups) hv hstats1 hcfg hwv hfetch1 hdiff1
      rw [hs1, h2]
      exact ⟨rfl, rfl, rfl, rfl, rfl, rfl⟩
    · have hdf : records_differ (existingRowOf row (select_columns_of cl xc uk))
          cl jc xc = false := by
        cases hb : records_differ (existingRowOf row (select_columns_of cl xc uk))
            cl jc xc
        · rfl
        · exact absurd hb hdiff
      have h1 := reconcile_skip_run t cfg r st wvals row hv hstats hcfg hwv hfetch hdf
      have hs1 : (insert_or_update_record t r st []).state =
          bumpSkip (bumpTotals st t) t := by
        rw [h1]
      have hstats1 : (bumpSkip (bumpTotals st t) t).table_stats.any
          (fun e => e.1 == t) = true := by
        simp only [bumpSkip, bumpTotals]
        rw [any_updateStats, any_updateStats]
        exact hstats
      have hfetch1 : fetchFirst ((bumpSkip (bumpTotals st t) t).store) t uk wvals =
          some row := by
        show fetchFirst st.store t uk wvals = some row
        exact hfetch
      have h2 := reconcile_skip_run t cfg r (bumpSkip (bumpTotals st t) t) wvals row
        hv hstats1 hcfg hwv hfetch1 hdf
      rw [hs1, h2]
      exact ⟨rfl, rfl, rfl, rfl, rfl, rfl⟩

/-- C2 counterexample to the claim as written: a record with an integer in a
plain column is Inserted on the first pass with its raw value, but the
differ compares the stored raw value against the serialized string, so the
identical record is Updated, not Skipped, on the second pass. -/
theorem second_pass_not_idempotent_counterexample :
    (insert_or_update_record "sevenps_result_set"
      [("test_request_id", PyVal.str "x"), ("asv", PyVal.int 5)]
      (insert_or_update_record "sevenps_result_set"
        [("test_request_id", PyVal.str "x"), ("asv", PyVal.int 5)]
        (initialState []) []).state []).state.total_updates = 1 ∧
    (insert_or_update_record "sevenps_result_set"
      [("test_request_id", PyVal.str "x"), ("asv", PyVal.int 5)]
      (insert_or_update_record "sevenps_result_set"
        [("test_request_id", PyVal.str "x"), ("asv", PyVal.int 5)]
        (initialState []) []).state []).state.total_skips = 0 ∧
    (insert_or_update_record "sevenps_result_set"
      [("test_request_id", PyVal.str "x"), ("asv", PyVal.int 5)]
      (initialState []) []).state.total_insertions = 1 :=
  ⟨rfl, rfl, rfl⟩

theorem second_pass_skipped_amended_witness :
    (insert_or_update_record "sevenps_result_set" [("test_request_id", PyVal.str "x")]
        (insert_or_update_record "sevenps_result_set"
          [("test_request_id", PyVal.str "x")] (initialState []) []).state []).err
      = Option.none ∧
    (insert_or_update_record "sevenps_result_set" [("test_request_id", PyVal.str "x")]
        (insert_or_update_record "sevenps_result_set"
          [("test_request_id", PyVal.str "x")] (initialState []) []).state
        []).state.total_skips =
      (insert_or_update_record "sevenps_result_set"
        [("test_request_id", PyVal.str "x")] (initialState []) []).state.total_skips
        + 1 ∧
    (insert_or_update_record "sevenps_result_set" [("test_request_id", PyVal.str "x")]
        (insert_or_update_record "sevenps_result_set"
          [("test_request_id", PyVal.str "x")] (initialState []) []).state
        []).state.total_insertions =
      (insert_or_update_record "sevenps_result_set"
        [("test_request_id", PyVal.str "x")]
        (initialState []) []).state.total_insertions ∧
    (insert_or_update_record "sevenps_result_set" [("test_request_id", PyVal.str "x")]
        (insert_or_update_record "sevenps_result_set"
          [("test_request_id", PyVal.str "x")] (initialState []) []).state
        []).state.total_updates =
      (insert_or_update_record "sevenps_result_set"
        [("test_request_id", PyVal.str "x")] (initialState []) []).state.total_updates ∧
    (insert_or_update_record "sevenps_result_set" [("test_request_id", PyVal.str "x")]
        (insert_or_update_record "sevenps_result_set"
          [("test_request_id", PyVal.str "x")] (initialState []) []).state
        []).state.store =
      (insert_or_update_record "sevenps_result_set"
        [("test_request_id", PyVal.str "x")] (initialState []) []).state.store ∧
    (insert_or_update_record "sevenps_result_set" [("test_request_id", PyVal.str "x")]
        (insert_or_update_record "sevenps_result_set"
          [("test_request_id", PyVal.str "x")] (initialState []) []).state
        []).calls =
      [DbCall.fetch "sevenps_result_set"
        (select_columns_of (clean_record_keys [("test_request_id", PyVal.str "x")])
          ["id", "created_date"] ["test_request_id"])
        ["test_request_id"] [PyVal.str "x"]] :=
  second_pass_skipped_amended "sevenps_result_set"
    { unique_keys := ["test_request_id"], excluded_columns := ["id", "created_date"],
      json_columns := ["report_doc", "traceability_doc"] }
    [("test_request_id", PyVal.str "x")] (initialState []) [PyVal.str "x"]
    rfl rfl rfl rfl (by decide) (by decide)
    (by
      intro kv hm h1 h2
      have hkv : kv = ("test_request_id", PyVal.str "x") := by
        have : clean_record_keys [("test_request_id", PyVal.str "x")] =
            [("test_request_id", PyVal.str "x")] := rfl
        rw [this] at hm
        exact List.mem_singleton.mp hm
      exact ⟨"x", by rw [hkv]⟩)

theorem toNat_ofNat_valid {n : Nat} (h : n.isValidChar) :
    (Char.ofNat n).toNat = n := by
  unfold Char.ofNat
  rw [dif_pos h]
  unfold Char.ofNatAux Char.toNat
  rfl

theorem toNat_ofNat_small {n : Nat} (h : n < 55296) : (Char.ofNat n).toNat = n :=
  toNat_ofNat_valid (Or.inl h)

theorem char_ne_of_toNat_ne {c d : Char} (h : c.toNat ≠ d.toNat) : c ≠ d := by
  intro he
  exact h (congrArg Char.toNat he)

theorem skipWs_cons_of_not {c : Char} (cs : List Char) (h : isJsonWs c = false) :
    skipWs (c :: cs) = c :: cs := by
  unfold skipWs
  rw [List.dropWhile_cons, h]
  rfl

theorem skipWs_cons_of_ws {c : Char} (cs : List Char) (h : isJsonWs c = true) :
    skipWs (c :: cs) = skipWs cs := by
  unfold skipWs
  rw [List.dropWhile_cons, h]
  rfl

theorem digitsVal_append_digit (ds : List Char) (c : Char) :
    digitsVal (ds ++ [c]) = digitsVal ds * 10 + (c.toNat - 48) := by
  unfold digitsVal
  rw [List.foldl_append]
  rfl

theorem natDigitsF_spec : ∀ fuel n, n < fuel →
    ∃ c tl, natDigitsF fuel n = c :: tl ∧
      (∀ d ∈ natDigitsF fuel n, isDigitChar d = true) ∧
      digitsVal (natDigitsF fuel n) = n ∧
      (c = Char.ofNat 48 → n = 0) := by
  intro fuel
  induction fuel with
  | zero => intro n h; omega
  | succ fuel ih =>
    intro n h
    by_cases hn : n < 10
    · refine ⟨Char.ofNat (48 + n), [], ?_, ?_, ?_, ?_⟩
      · unfold natDigitsF
        rw [if_pos hn]
      · intro d hd
        unfold natDigitsF at hd
        rw [if_pos hn] at hd
        rcases List.mem_singleton.mp hd with hd
        rw [hd]
        unfold isDigitChar
        rw [toNat_ofNat_small (by omega)]
        simp only [Bool.and_eq_true, decide_eq_true_eq]
        omega
      · unfold natDigitsF
        rw [if_pos hn]
        unfold digitsVal
        simp only [List.foldl_cons, List.foldl_nil]
        rw [toNat_ofNat_small (by omega)]
        omega
      · intro hc
        have := congrArg Char.toNat hc
        rw [toNat_ofNat_small (by omega), toNat_ofNat_small (by omega)] at this
        omega
    · have hdiv : n / 10 < fuel := by
        have h1 : n / 10 < n := Nat.div_lt_self (by omega) (by omega)
        omega
      obtain ⟨c, tl, heq, hdig, hval, hzero⟩ := ih (n / 10) hdiv
      have hrw : natDigitsF (fuel + 1) n =
          natDigitsF fuel (n / 10) ++ [Char.ofNat (48 + n % 10)] := by
        conv_lhs => rw [natDigitsF]
        rw [if_neg hn]
      refine ⟨c, tl ++ [Char.ofNat (48 + n % 10)], ?_, ?_, ?_, ?_⟩
      · rw [hrw, heq]
        rfl
      · intro d hd
        rw [hrw] at hd
        rcases List.mem_append.mp hd with h1 | h2
        · exact hdig d h1
        · rcases List.mem_singleton.mp h2 with h2
          rw [h2]
          unfold isDigitChar
          rw [toNat_ofNat_small (by omega)]
          simp only [Bool.and_eq_true, decide_eq_true_eq]
          omega
      · rw [hrw, digitsVal_append_digit, hval, toNat_ofNat_small (by omega)]
        omega
      · intro hc
        have h0 := hzero hc
        omega

theorem takeWhile_append_all {p : Char → Bool} : ∀ (xs ys : List Char),
    (∀ x ∈ xs, p x = true) → (∀ c tl, ys = c :: tl → p c = false) →
    (xs ++ ys).takeWhile p = xs ∧ (xs ++ ys).dropWhile p = ys := by
  intro xs
  induction xs with
  | nil =>
    intro ys hx hy
    cases ys with
    | nil => exact ⟨rfl, rfl⟩
    | cons c tl =>
      rw [List.nil_append, List.takeWhile_cons, List.dropWhile_cons, hy c tl rfl]
      exact ⟨rfl, rfl⟩
  | cons x xtl ih =>
    intro ys hx hy
    rw [List.cons_append, List.takeWhile_cons, List.dropWhile_cons,
      hx x (List.mem_cons_self _ _)]
    obtain ⟨h1, h2⟩ := ih ys (fun a ha => hx a (List.mem_cons_of_mem _ ha)) hy
    rw [h1, h2]
    exact ⟨rfl, rfl⟩

theorem numStop_head_not_digit {c : Char} {tl : List Char}
    (h : numStop (c :: tl) = true) : isDigitChar c = false := by
  unfold numStop at h
  simp only [Bool.and_eq_true, Bool.not_eq_true'] at h
  exact h.1.1.1

theorem parseNum_digits_core {m : Nat} {c : Char} {tl rest : List Char}
    (heq : natDigits m = c :: tl)
    (hstop : numStop rest = true) (neg : Bool) :
    (match (c :: (tl ++ rest) : List Char) with
      | [] => Option.none
      | d :: _ =>
        if isDigitChar d then
          let ds := (c :: (tl ++ rest)).takeWhile isDigitChar
          let r2 := (c :: (tl ++ rest)).dropWhile isDigitChar
          if d = Char.ofNat 48 && ds.length != 1 then Option.none
          else
            match r2 with
            | r :: _ =>
              if r = Char.ofNat 46 || r = Char.ofNat 101 || r = Char.ofNat 69 then
                Option.none
              else some (PyVal.int (if neg then -(digitsVal ds : Int) else (digitsVal ds : Int)), r2)
            | [] => some (PyVal.int (if neg then -(digitsVal ds : Int) else (digitsVal ds : Int)), r2)
        else Option.none) =
      some (PyVal.int (if neg then -(m : Int) else (m : Int)), rest) := by
  obtain ⟨c2, tl2, heq2, hdig, hval, hzero⟩ := natDigitsF_spec (m + 1) m (by omega)
  unfold natDigits at heq
  rw [heq] at hdig hval
  have hcz : c = Char.ofNat 48 → m = 0 := by
    intro h0
    apply hzero
    rw [heq] at heq2
    injection heq2 with ha hb
    rw [← ha]
    exact h0
  have hsplit := takeWhile_append_all (c :: tl) rest hdig
    (fun d dtl hd => by rw [hd] at hstop; exact numStop_head_not_digit hstop)
  rw [List.cons_append] at hsplit
  dsimp only
  rw [if_pos (hdig c (List.mem_cons_self _ _)), hsplit.1, hsplit.2]
  have hcond : (decide (c = Char.ofNat 48) && (c :: tl).length != 1) = false := by
    by_cases hc : c = Char.ofNat 48
    · have hm0 := hcz hc
      subst hm0
      have : (c :: tl : List Char) = [Char.ofNat 48] := by rw [← heq]; rfl
      rw [this]
      simp
    · simp [hc]
  rw [hcond]
  simp only [Bool.false_eq_true, if_false]
  rw [hval]
  cases rest with
  | nil => rfl
  | cons r rtl =>
    unfold numStop at hstop
    simp only [Bool.and_eq_true, Bool.not_eq_true', decide_eq_false_iff_not] at hstop
    dsimp only
    rw [if_neg (by
      simp only [Bool.or_eq_true, decide_eq_true_eq]
      push_neg
      exact ⟨⟨hstop.1.1.2, hstop.1.2⟩, hstop.2⟩)]

theorem parseNum_intChars (n : Int) (rest : List Char) (hstop : numStop rest = true) :
    parseNum (intChars n ++ rest) = some (.int n, rest) := by
  unfold intChars
  by_cases hn : n < 0
  · rw [if_pos hn]
    obtain ⟨c, tl, heq, hdig, hval, hzero⟩ :=
      natDigitsF_spec (n.natAbs + 1) n.natAbs (by omega)
    have heq2 : natDigits n.natAbs = c :: tl := heq
    rw [heq2, List.cons_append, List.cons_append]
    unfold parseNum
    dsimp only
    rw [if_pos rfl]
    dsimp only
    simp only [if_true]
    have hcore := parseNum_digits_core heq2 hstop true
    simp only [if_true] at hcore
    rw [hcore]
    have habs : -((n.natAbs : Nat) : Int) = n := by omega
    rw [habs]
  · rw [if_neg hn]
    obtain ⟨c, tl, heq, hdig, hval, hzero⟩ :=
      natDigitsF_spec (n.toNat + 1) n.toNat (by omega)
    have heq2 : natDigits n.toNat = c :: tl := heq
    rw [heq] at hdig
    rw [heq2, List.cons_append]
    unfold parseNum
    dsimp only
    have hc45 : (c = Char.ofNat 45) = False := by
      simp only [eq_iff_iff, iff_false]
      apply char_ne_of_toNat_ne
      have := hdig c (List.mem_cons_self _ _)
      unfold isDigitChar at this
      simp only [Bool.and_eq_true, decide_eq_true_eq] at this
      rw [toNat_ofNat_small (by omega)]
      omega
    rw [if_neg (by rw [hc45]; exact id)]
    dsimp only
    simp only [Bool.false_eq_true, if_false]
    have hcore := parseNum_digits_core heq2 hstop false
    simp only [Bool.false_eq_true, if_false] at hcore
    rw [hcore]
    have habs : ((n.toNat : Nat) : Int) = n := by omega
    rw [habs]

theorem char_eq_of_toNat_eq {c d : Char} (h : c.toNat = d.toNat) : c = d :=
  Char.ext (UInt32.ext h)

theorem escChar_plain {c : Char} (h32 : 32 ≤ c.toNat) (hq : c ≠ cQuote)
    (hb : c ≠ cBackslash) : escChar c = [c] := by
  unfold escChar
  rw [if_neg hq, if_neg hb,
    if_neg (char_ne_of_toNat_ne (by rw [toNat_ofNat_small (by omega)]; omega)),
    if_neg (char_ne_of_toNat_ne (by rw [toNat_ofNat_small (by omega)]; omega)),
    if_neg (char_ne_of_toNat_ne (by rw [toNat_ofNat_small (by omega)]; omega)),
    if_neg (char_ne_of_toNat_ne (by rw [toNat_ofNat_small (by omega)]; omega)),
    if_neg (char_ne_of_toNat_ne (by rw [toNat_ofNat_small (by omega)]; omega))]

theorem parseStrBody_backslash (e u : Char) (cs2 : List Char)
    (hu : unescChar e = some u) :
    parseStrBody (cBackslash :: e :: cs2) =
      (parseStrBody cs2).map (fun p => (u :: p.1, p.2)) := by
  conv_lhs => rw [parseStrBody]
  rw [if_neg (show cBackslash ≠ cQuote from by decide), if_pos rfl]
  rw [hu]

theorem parseStrBody_plain (c : Char) (cs2 : List Char) (h1 : c ≠ cQuote)
    (h2 : c ≠ cBackslash) (h3 : 32 ≤ c.toNat) :
    parseStrBody (c :: cs2) =
      (parseStrBody cs2).map (fun p => (c :: p.1, p.2)) := by
  conv_lhs => rw [parseStrBody.eq_def]
  dsimp only
  rw [if_neg h1, if_neg h2, if_neg (by omega)]

theorem parseStrBody_escString : ∀ (cs : List Char), ∀ (rest : List Char),
    (∀ c ∈ cs, saneChar c = true) →
    parseStrBody (escString cs ++ (cQuote :: rest)) = some (cs, rest) := by
  intro cs
  induction cs with
  | nil =>
    intro rest h
    show parseStrBody (cQuote :: rest) = some ([], rest)
    unfold parseStrBody
    rw [if_pos rfl]
  | cons c ctl ih =>
    intro rest h
    have hc := h c (List.mem_cons_self _ _)
    have ihr := ih rest (fun a ha => h a (List.mem_cons_of_mem _ ha))
    have hesc : escString (c :: ctl) = escChar c ++ escString ctl := by
      simp [escString]
    rw [hesc, List.append_assoc]
    by_cases hq : c = cQuote
    · subst hq
      rw [show escChar cQuote = [cBackslash, cQuote] from by decide]
      rw [show ([cBackslash, cQuote] ++ (escString ctl ++ cQuote :: rest) : List Char)
        = cBackslash :: cQuote :: (escString ctl ++ cQuote :: rest) from rfl]
      rw [parseStrBody_backslash cQuote cQuote _ (by decide), ihr]
      rfl
    · by_cases hb : c = cBackslash
      · subst hb
        rw [show escChar cBackslash = [cBackslash, cBackslash] from by decide]
        rw [show ([cBackslash, cBackslash] ++ (escString ctl ++ cQuote :: rest) : List Char)
          = cBackslash :: cBackslash :: (escString ctl ++ cQuote :: rest) from rfl]
        rw [parseStrBody_backslash cBackslash cBackslash _ (by decide), ihr]
        rfl
      · unfold saneChar at hc
        simp only [Bool.or_eq_true, decide_eq_true_eq] at hc
        rcases hc with ((((h32 | h8) | h9) | h10) | h12) | h13
        · rw [escChar_plain h32 hq hb]
          rw [show ([c] ++ (escString ctl ++ cQuote :: rest) : List Char)
            = c :: (escString ctl ++ cQuote :: rest) from rfl]
          rw [parseStrBody_plain c _ hq hb h32, ihr]
          rfl
        · have hce : c = Char.ofNat 8 :=
            char_eq_of_toNat_eq (by rw [toNat_ofNat_small (by omega)]; omega)
          subst hce
          rw [show escChar (Char.ofNat 8) = [cBackslash, Char.ofNat 98] from by decide]
          rw [show ([cBackslash, Char.ofNat 98] ++ (escString ctl ++ cQuote :: rest) : List Char)
            = cBackslash :: Char.ofNat 98 :: (escString ctl ++ cQuote :: rest) from rfl]
          rw [parseStrBody_backslash (Char.ofNat 98) (Char.ofNat 8) _ (by decide), ihr]
          rfl
        · have hce : c = Char.ofNat 9 :=
            char_eq_of_toNat_eq (by rw [toNat_ofNat_small (by omega)]; omega)
          subst hce
          rw [show escChar (Char.ofNat 9) = [cBackslash, Char.ofNat 116] from by decide]
          rw [show ([cBackslash, Char.ofNat 116] ++ (escString ctl ++ cQuote :: rest) : List Char)
            = cBackslash :: Char.ofNat 116 :: (escString ctl ++ cQuote :: rest) from rfl]
          rw [parseStrBody_backslash (Char.ofNat 116) (Char.ofNat 9) _ (by decide), ihr]
          rfl
        · have hce : c = Char.ofNat 10 :=
            char_eq_of_toNat_eq (by rw [toNat_ofNat_small (by omega)]; omega)
          subst hce
          rw [show escChar (Char.ofNat 10) = [cBackslash, Char.ofNat 110] from by decide]
          rw [show ([cBackslash, Char.ofNat 110] ++ (escString ctl ++ cQuote :: rest) : List Char)
            = cBackslash :: Char.ofNat 110 :: (escString ctl ++ cQuote :: rest) from rfl]
          rw [parseStrBody_backslash (Char.ofNat 110) (Char.ofNat 10) _ (by decide), ihr]
          rfl
        · have hce : c = Char.ofNat 12 :=
            char_eq_of_toNat_eq (by rw [toNat_ofNat_small (by omega)]; omega)
          subst hce
          rw [show escChar (Char.ofNat 12) = [cBackslash, Char.ofNat 102] from by decide]
          rw [show ([cBackslash, Char.ofNat 102] ++ (escString ctl ++ cQuote :: rest) : List Char)
            = cBackslash :: Char.ofNat 102 :: (escString ctl ++ cQuote :: rest) from rfl]
          rw [parseStrBody_backslash (Char.ofNat 102) (Char.ofNat 12) _ (by decide), ihr]
          rfl
        · have hce : c = Char.ofNat 13 :=
            char_eq_of_toNat_eq (by rw [toNat_ofNat_small (by omega)]; omega)
          subst hce
          rw [show escChar (Char.ofNat 13) = [cBackslash, Char.ofNat 114] from by decide]
          rw [show ([cBackslash, Char.ofNat 114] ++ (escString ctl ++ cQuote :: rest) : List Char)
            = cBackslash :: Char.ofNat 114 :: (escString ctl ++ cQuote :: rest) from rfl]
          rw [parseStrBody_backslash (Char.ofNat 114) (Char.ofNat 13) _ (by decide), ihr]
          rfl

theorem chopLead_cons_ne {l : Char} {ls : List Char} {c : Char} {cs : List Char}
    (h : c ≠ l) : chopLead (l :: ls) (c :: cs) = Option.none := by
  unfold chopLead
  rw [if_neg h]

theorem chopLead_self : ∀ (ls cs : List Char), chopLead ls (ls ++ cs) = some cs := by
  intro ls
  induction ls with
  | nil => intro cs; rfl
  | cons l ltl ih =>
    intro cs
    rw [List.cons_append]
    unfold chopLead
    rw [if_pos rfl]
    exact ih cs

theorem dumpsChars_head (v : PyVal) : ∃ c tl, dumpsChars v = c :: tl ∧
    isJsonWs c = false ∧ c ≠ Char.ofNat 93 ∧ c ≠ Char.ofNat 125 := by
  cases v with
  | none => exact ⟨_, _, rfl, by decide, by decide, by decide⟩
  | bool b =>
    cases b with
    | false => exact ⟨_, _, rfl, by decide, by decide, by decide⟩
    | true => exact ⟨_, _, rfl, by decide, by decide, by decide⟩
  | str s => exact ⟨_, _, rfl, by decide, by decide, by decide⟩
  | list xs => exact ⟨_, _, rfl, by decide, by decide, by decide⟩
  | dict kvs => exact ⟨_, _, rfl, by decide, by decide, by decide⟩
  | int n =>
    by_cases hn : n < 0
    · refine ⟨Char.ofNat 45, natDigits n.natAbs, ?_, by decide, by decide, by decide⟩
      show intChars n = _
      unfold intChars
      rw [if_pos hn]
    · obtain ⟨c, tl, heq, hdig, hval, hzero⟩ :=
        natDigitsF_spec (n.toNat + 1) n.toNat (by omega)
      have hd := hdig c (heq ▸ List.mem_cons_self _ _)
      unfold isDigitChar at hd
      simp only [Bool.and_eq_true, decide_eq_true_eq] at hd
      refine ⟨c, tl, ?_, ?_, ?_, ?_⟩
      · show intChars n = _
        unfold intChars
        rw [if_neg hn]
        exact heq
      · cases hb : isJsonWs c with
        | false => rfl
        | true =>
          exfalso
          unfold isJsonWs at hb
          simp only [Bool.or_eq_true, decide_eq_true_eq] at hb
          rcases hb with ((h1 | h1) | h1) | h1 <;>
            (have h2 := congrArg Char.toNat h1
             rw [toNat_ofNat_small (by omega)] at h2
             omega)
      · exact char_ne_of_toNat_ne (by rw [toNat_ofNat_small (by omega)]; omega)
      · exact char_ne_of_toNat_ne (by rw [toNat_ofNat_small (by omega)]; omega)

theorem skipWs_dumps (v : PyVal) (rest : List Char) :
    skipWs (dumpsChars v ++ rest) = dumpsChars v ++ rest := by
  obtain ⟨c, tl, heq, hws, h93, h125⟩ := dumpsChars_head v
  rw [heq, List.cons_append, skipWs_cons_of_not _ hws]

mutual

theorem needF_le : ∀ (v : PyVal), needF v ≤ (dumpsChars v).length
  | .none => by decide
  | .bool true => by decide
  | .bool false => by decide
  | .int n => by
    show 1 ≤ (intChars n).length
    unfold intChars
    by_cases hn : n < 0
    · rw [if_pos hn]
      simp
    · rw [if_neg hn]
      obtain ⟨c, tl, heq, hdig, hval, hzero⟩ :=
        natDigitsF_spec (n.toNat + 1) n.toNat (by omega)
      have heq2 : natDigits n.toNat = c :: tl := heq
      rw [heq2]
      simp
  | .str s => by
    show 1 ≤ (cQuote :: escString s.data ++ [cQuote]).length
    simp
  | .list [] => by decide
  | .dict [] => by decide
  | .list (v :: vs) => by
    have h := needA_le (v :: vs)
    show needA (v :: vs) + 1 ≤
      (cLbrack :: joinSep [Char.ofNat 44, Char.ofNat 32] (dumpsItems (v :: vs))
        ++ [cRbrack]).length
    simp only [List.length_cons, List.length_append, List.length_singleton]
    omega
  | .dict (kv :: kvs) => by
    have h := needO_le (kv :: kvs)
    show needO (kv :: kvs) + 1 ≤
      (cLbrace :: joinSep [Char.ofNat 44, Char.ofNat 32] (dumpsMembers (kv :: kvs))
        ++ [cRbrace]).length
    simp only [List.length_cons, List.length_append, List.length_singleton]
    omega

theorem needA_le : ∀ (vs : List PyVal),
    needA vs ≤ (joinSep [Char.ofNat 44, Char.ofNat 32] (dumpsItems vs)).length + 1
  | [] => by decide
  | [v] => by
    have h := needF_le v
    show max (needF v) (needA []) + 1 ≤ (dumpsChars v).length + 1
    unfold needA
    omega
  | v :: w :: ws => by
    have h1 := needF_le v
    have h2 := needA_le (w :: ws)
    show max (needF v) (needA (w :: ws)) + 1 ≤
      (dumpsChars v ++ [Char.ofNat 44, Char.ofNat 32] ++
        joinSep [Char.ofNat 44, Char.ofNat 32] (dumpsItems (w :: ws))).length + 1
    simp only [List.length_append, List.length_cons, List.length_nil] at h2 ⊢
    omega

theorem needO_le : ∀ (kvs : List (String × PyVal)),
    needO kvs ≤ (joinSep [Char.ofNat 44, Char.ofNat 32] (dumpsMembers kvs)).length + 1
  | [] => by decide
  | [(k, v)] => by
    have h := needF_le v
    show max (needF v) (needO []) + 1 ≤
      (cQuote :: escString k.data ++ [cQuote, Char.ofNat 58, Char.ofNat 32]
        ++ dumpsChars v).length + 1
    unfold needO
    simp only [List.length_cons, List.length_append]
    omega
  | (k, v) :: kv2 :: kvs => by
    have h1 := needF_le v
    have h2 := needO_le (kv2 :: kvs)
    show max (needF v) (needO (kv2 :: kvs)) + 1 ≤
      ((cQuote :: escString k.data ++ [cQuote, Char.ofNat 58, Char.ofNat 32]
        ++ dumpsChars v) ++ [Char.ofNat 44, Char.ofNat 32] ++
        joinSep [Char.ofNat 44, Char.ofNat 32] (dumpsMembers (kv2 :: kvs))).length + 1
    simp only [List.length_cons, List.length_append, List.length_nil] at h2 ⊢
    omega

end

theorem parseVal_cons_ws {c : Char} (fuel : Nat) (cs : List Char)
    (h : isJsonWs c = true) :
    parseVal fuel (c :: cs) = parseVal fuel cs := by
  cases fuel with
  | zero => rfl
  | succ f =>
    conv_lhs => rw [parseVal]
    conv_rhs => rw [parseVal]
    rw [skipWs_cons_of_ws _ h]

theorem parseArrItems_congr {f : Nat} {cs cs2 : List Char} (acc : List PyVal)
    (h : parseVal f cs = parseVal f cs2) :
    parseArrItems (f + 1) cs acc = parseArrItems (f + 1) cs2 acc := by
  conv_lhs => rw [parseArrItems]
  conv_rhs => rw [parseArrItems]
  rw [h]

theorem pyDictInsert_append {kvs : List (String × PyVal)} {k : String} (v : PyVal)
    (h : kvs.any (fun kv => kv.1 == k) = false) :
    pyDictInsert kvs k v = kvs ++ [(k, v)] := by
  unfold pyDictInsert
  rw [h]
  rfl

theorem chopLead_append_ne {l : Char} {ls : List Char} {c : Char} {cs rest : List Char}
    (h : c ≠ l) : chopLead (l :: ls) ((c :: cs) ++ rest) = Option.none := by
  rw [List.cons_append]
  exact chopLead_cons_ne h

theorem dumpsMembers_join_head (kv : String × PyVal) (kvs : List (String × PyVal)) :
    ∃ z, joinSep [Char.ofNat 44, Char.ofNat 32] (dumpsMembers (kv :: kvs)) =
      cQuote :: z := by
  cases kvs with
  | nil => exact ⟨_, rfl⟩
  | cons kv2 kvs2 => exact ⟨_, rfl⟩

theorem needF_pos (v : PyVal) : 1 ≤ needF v := by
  cases v with
  | list xs =>
    cases xs with
    | nil => decide
    | cons a l =>
      show 1 ≤ needA (a :: l) + 1
      omega
  | dict kvs =>
    cases kvs with
    | nil => decide
    | cons a l =>
      show 1 ≤ needO (a :: l) + 1
      omega
  | none => exact Nat.le_refl 1
  | bool b => exact Nat.le_refl 1
  | int n => exact Nat.le_refl 1
  | str s => exact Nat.le_refl 1

theorem needA_pos (v : PyVal) (vs : List PyVal) : 1 ≤ needA (v :: vs) := by
  unfold needA
  omega

theorem needO_pos (kv : String × PyVal) (kvs : List (String × PyVal)) :
    1 ≤ needO (kv :: kvs) := by
  obtain ⟨k, v⟩ := kv
  unfold needO
  omega

theorem parse_dumps : ∀ fuel : Nat,
    (∀ v rest, saneVal v = true → needF v ≤ fuel → numStop rest = true →
      parseVal fuel (dumpsChars v ++ rest) = some (v, rest)) ∧
    (∀ vs acc rest, saneItems vs = true → needA vs ≤ fuel → vs ≠ [] →
      parseArrItems fuel
        (joinSep [Char.ofNat 44, Char.ofNat 32] (dumpsItems vs) ++ (cRbrack :: rest))
        acc = some (.list (acc.reverse ++ vs), rest)) ∧
    (∀ kvs acc rest, sanePairs kvs = true → needO kvs ≤ fuel → kvs ≠ [] →
      nodupKeys kvs = true →
      (∀ kv ∈ kvs, acc.any (fun e => e.1 == kv.1) = false) →
      parseObjItems fuel
        (joinSep [Char.ofNat 44, Char.ofNat 32] (dumpsMembers kvs) ++ (cRbrace :: rest))
        acc = some (.dict (acc ++ kvs), rest)) := by
  intro fuel
  induction fuel with
  | zero =>
    refine ⟨fun v rest hs hf hstop => ?_, fun vs acc rest hs hf hne => ?_,
      fun kvs acc rest hs hf hne hnd hany => ?_⟩
    · exact absurd hf (by have := needF_pos v; omega)
    · cases vs with
      | nil => exact absurd rfl hne
      | cons v vs2 => exact absurd hf (by have := needA_pos v vs2; omega)
    · cases kvs with
      | nil => exact absurd rfl hne
      | cons kv kvs2 => exact absurd hf (by have := needO_pos kv kvs2; omega)
  | succ fuel ih =>
    obtain ⟨ih1, ih2, ih3⟩ := ih
    refine ⟨fun v rest hs hf hstop => ?_, fun vs acc rest hs hf hne => ?_,
      fun kvs acc rest hs hf hne hnd hany => ?_⟩
    · cases v with
      | none =>
        conv_lhs => rw [parseVal]
        rw [skipWs_dumps]
        rw [show (dumpsChars PyVal.none ++ rest : List Char) =
          [Char.ofNat 110, Char.ofNat 117, Char.ofNat 108, Char.ofNat 108] ++ rest
          from rfl]
        rw [chopLead_self]
      | bool b =>
        cases b with
        | true =>
          conv_lhs => rw [parseVal]
          rw [skipWs_dumps]
          rw [show (dumpsChars (PyVal.bool true) ++ rest : List Char) =
            [Char.ofNat 116, Char.ofNat 114, Char.ofNat 117, Char.ofNat 101] ++ rest
            from rfl]
          rw [chopLead_append_ne (by decide)]
          dsimp only
          rw [chopLead_self]
        | false =>
          conv_lhs => rw [parseVal]
          rw [skipWs_dumps]
          rw [show (dumpsChars (PyVal.bool false) ++ rest : List Char) =
            [Char.ofNat 102, Char.ofNat 97, Char.ofNat 108, Char.ofNat 115,
              Char.ofNat 101] ++ rest from rfl]
          rw [chopLead_append_ne (by decide)]
          dsimp only
          rw [chopLead_append_ne (by decide)]
          dsimp only
          rw [chopLead_self]
      | int n =>
        conv_lhs => rw [parseVal]
        rw [skipWs_dumps]
        have hnum := parseNum_intChars n rest hstop
        by_cases hn : n < 0
        · have hic : intChars n = Char.ofNat 45 :: natDigits n.natAbs := by
            unfold intChars
            rw [if_pos hn]
          rw [show (dumpsChars (PyVal.int n) ++ rest : List Char) =
            intChars n ++ rest from rfl]
          rw [hic]
          rw [chopLead_append_ne (by decide)]
          dsimp only
          rw [chopLead_append_ne (by decide)]
          dsimp only
          rw [chopLead_append_ne (by decide)]
          dsimp only
          rw [List.cons_append]
          dsimp only
          rw [if_neg (by decide), if_neg (by decide), if_neg (by decide)]
          rw [← List.cons_append, ← hic]
          exact hnum
        · obtain ⟨c, tl, heq, hdig, hval, hzero⟩ :=
            natDigitsF_spec (n.toNat + 1) n.toNat (by omega)
          have hd := hdig c (heq ▸ List.mem_cons_self _ _)
          unfold isDigitChar at hd
          simp only [Bool.and_eq_true, decide_eq_true_eq] at hd
          have hic : intChars n = c :: tl := by
            unfold intChars
            rw [if_neg hn]
            exact heq
          rw [show (dumpsChars (PyVal.int n) ++ rest : List Char) =
            intChars n ++ rest from rfl]
          rw [hic]
          rw [chopLead_append_ne (char_ne_of_toNat_ne
            (by rw [toNat_ofNat_small (by omega)]; omega))]
          dsimp only
          rw [chopLead_append_ne (char_ne_of_toNat_ne
            (by rw [toNat_ofNat_small (by omega)]; omega))]
          dsimp only
          rw [chopLead_append_ne (char_ne_of_toNat_ne
            (by rw [toNat_ofNat_small (by omega)]; omega))]
          dsimp only
          rw [List.cons_append]
          dsimp only
          rw [if_neg (char_ne_of_toNat_ne
              (by rw [show cQuote.toNat = 34 from rfl]; omega)),
            if_neg (char_ne_of_toNat_ne
              (by rw [show cLbrace.toNat = 123 from rfl]; omega)),
            if_neg (char_ne_of_toNat_ne
              (by rw [show cLbrack.toNat = 91 from rfl]; omega))]
          rw [← List.cons_append, ← hic]
          exact hnum
      | str s =>
        conv_lhs => rw [parseVal]
        rw [skipWs_dumps]
        rw [show (dumpsChars (PyVal.str s) ++ rest : List Char) =
          (cQuote :: (escString s.data ++ [cQuote])) ++ rest from rfl]
        rw [chopLead_append_ne (by decide)]
        dsimp only
        rw [chopLead_append_ne (by decide)]
        dsimp only
        rw [chopLead_append_ne (by decide)]
        dsimp only
        rw [List.cons_append]
        dsimp only
        rw [if_pos rfl]
        rw [List.append_assoc]
        rw [show ([cQuote] ++ rest : List Char) = cQuote :: rest from rfl]
        rw [parseStrBody_escString s.data rest (by
          unfold saneVal at hs
          exact List.all_eq_true.mp hs)]
        rfl
      | list xs =>
        cases xs with
        | nil =>
          conv_lhs => rw [parseVal]
          rw [skipWs_dumps]
          rw [show (dumpsChars (PyVal.list []) ++ rest : List Char) =
            (cLbrack :: ([cRbrack] ++ rest)) from rfl]
          rw [chopLead_cons_ne (by decide)]
          dsimp only
          rw [chopLead_cons_ne (by decide)]
          dsimp only
          rw [chopLead_cons_ne (by decide)]
          dsimp only
          rw [if_neg (by decide), if_neg (by decide), if_pos rfl]
          rw [show ([cRbrack] ++ rest : List Char) = cRbrack :: rest from rfl]
          rw [skipWs_cons_of_not _ (by decide)]
          dsimp only
          rw [if_pos rfl]
        | cons v vs =>
          have hQA := ih2 (v :: vs) [] rest (by
              unfold saneVal at hs
              exact hs)
            (by
              have : needF (.list (v :: vs)) = needA (v :: vs) + 1 := rfl
              omega)
            (by simp)
          conv_lhs => rw [parseVal]
          rw [skipWs_dumps]
          rw [show (dumpsChars (PyVal.list (v :: vs)) ++ rest : List Char) =
            (cLbrack :: (joinSep [Char.ofNat 44, Char.ofNat 32] (dumpsItems (v :: vs))
              ++ (cRbrack :: rest))) from by
            show cLbrack :: (joinSep [Char.ofNat 44, Char.ofNat 32]
              (dumpsItems (v :: vs)) ++ [cRbrack]) ++ rest = _
            rw [List.cons_append, List.append_assoc]
            rfl]
          rw [chopLead_cons_ne (by decide)]
          dsimp only
          rw [chopLead_cons_ne (by decide)]
          dsimp only
          rw [chopLead_cons_ne (by decide)]
          dsimp only
          rw [if_neg (by decide), if_neg (by decide), if_pos rfl]
          obtain ⟨c, tl, heq, hws, h93, h125⟩ := dumpsChars_head v
          have hjoin : ∃ jtl, joinSep [Char.ofNat 44, Char.ofNat 32]
              (dumpsItems (v :: vs)) = dumpsChars v ++ jtl := by
            cases vs with
            | nil => exact ⟨[], by rw [List.append_nil]; rfl⟩
            | cons w ws =>
              exact ⟨[Char.ofNat 44, Char.ofNat 32] ++
                joinSep [Char.ofNat 44, Char.ofNat 32] (dumpsItems (w :: ws)), by
                  rw [← List.append_assoc]; rfl⟩
          obtain ⟨jtl, hj⟩ := hjoin
          rw [hj, List.append_assoc, heq, List.cons_append]
          rw [skipWs_cons_of_not _ hws]
          dsimp only
          rw [if_neg (show ¬(c = cRbrack) from h93)]
          rw [← List.cons_append, ← heq, ← List.append_assoc, ← hj]
          rw [hQA]
          rfl
      | dict kvs =>
        cases kvs with
        | nil =>
          conv_lhs => rw [parseVal]
          rw [skipWs_dumps]
          rw [show (dumpsChars (PyVal.dict []) ++ rest : List Char) =
            (cLbrace :: ([cRbrace] ++ rest)) from rfl]
          rw [chopLead_cons_ne (by decide)]
          dsimp only
          rw [chopLead_cons_ne (by decide)]
          dsimp only
          rw [chopLead_cons_ne (by decide)]
          dsimp only
          rw [if_neg (by decide), if_pos rfl]
          rw [show ([cRbrace] ++ rest : List Char) = cRbrace :: rest from rfl]
          rw [skipWs_cons_of_not _ (by decide)]
          dsimp only
          rw [if_pos rfl]
        | cons kv kvs2 =>
          have hsp : nodupKeys (kv :: kvs2) = true ∧ sanePairs (kv :: kvs2) = true := by
            unfold saneVal at hs
            simpa [Bool.and_eq_true] using hs
          have hQB := ih3 (kv :: kvs2) [] rest hsp.2
            (by
              have : needF (.dict (kv :: kvs2)) = needO (kv :: kvs2) + 1 := rfl
              omega)
            (by simp) hsp.1 (fun kv2 hm => rfl)
          conv_lhs => rw [parseVal]
          rw [skipWs_dumps]
          rw [show (dumpsChars (PyVal.dict (kv :: kvs2)) ++ rest : List Char) =
            (cLbrace :: (joinSep [Char.ofNat 44, Char.ofNat 32]
              (dumpsMembers (kv :: kvs2)) ++ (cRbrace :: rest))) from by
            show cLbrace :: (joinSep [Char.ofNat 44, Char.ofNat 32]
              (dumpsMembers (kv :: kvs2)) ++ [cRbrace]) ++ rest = _
            rw [List.cons_append, List.append_assoc]
            rfl]
          rw [chopLead_cons_ne (by decide)]
          dsimp only
          rw [chopLead_cons_ne (by decide)]
          dsimp only
          rw [chopLead_cons_ne (by decide)]
          dsimp only
          rw [if_neg (by decide), if_pos rfl]
          obtain ⟨z, hz⟩ := dumpsMembers_join_head kv kvs2
          rw [hz, List.cons_append]
          rw [skipWs_cons_of_not _ (by decide)]
          dsimp only
          rw [if_neg (by decide)]
          rw [← List.cons_append, ← hz]
          rw [hQB]
          rfl
    · cases vs with
      | nil => exact absurd rfl hne
      | cons v vs2 =>
        have hsv : saneVal v = true ∧ saneItems vs2 = true := by
          unfold saneItems at hs
          simpa [Bool.and_eq_true] using hs
        have hfv : needF v ≤ fuel := by
          unfold needA at hf
          omega
        cases vs2 with
        | nil =>
          conv_lhs => rw [parseArrItems]
          rw [show (joinSep [Char.ofNat 44, Char.ofNat 32] (dumpsItems [v]) :
            List Char) = dumpsChars v from rfl]
          rw [ih1 v (cRbrack :: rest) hsv.1 hfv (by simp only [numStop]; decide)]
          dsimp only
          rw [skipWs_cons_of_not _ (by decide)]
          dsimp only
          rw [if_neg (by decide), if_pos rfl]
          rw [List.reverse_cons]
        | cons w ws =>
          have hfa : needA (w :: ws) ≤ fuel := by
            unfold needA at hf
            omega
          conv_lhs => rw [parseArrItems]
          rw [show (joinSep [Char.ofNat 44, Char.ofNat 32]
              (dumpsItems (v :: w :: ws)) ++ (cRbrack :: rest) : List Char) =
            dumpsChars v ++ (Char.ofNat 44 :: Char.ofNat 32 ::
              (joinSep [Char.ofNat 44, Char.ofNat 32] (dumpsItems (w :: ws)) ++
                (cRbrack :: rest))) from by
            show (dumpsChars v ++ [Char.ofNat 44, Char.ofNat 32] ++
              joinSep [Char.ofNat 44, Char.ofNat 32] (dumpsItems (w :: ws)))
              ++ (cRbrack :: rest) = _
            rw [List.append_assoc, List.append_assoc]
            rfl]
          rw [ih1 v _ hsv.1 hfv (by simp only [numStop]; decide)]
          dsimp only
          rw [skipWs_cons_of_not _ (by decide)]
          dsimp only
          rw [if_pos rfl]
          obtain ⟨f2, hf2⟩ : ∃ f2, fuel = f2 + 1 :=
            ⟨fuel - 1, by have := needA_pos w ws; omega⟩
          subst hf2
          rw [parseArrItems_congr _ (parseVal_cons_ws _ _ (by decide))]
          rw [ih2 (w :: ws) (v :: acc) rest hsv.2 hfa (by simp)]
          rw [List.reverse_cons, List.append_assoc]
          rfl
    · cases kvs with
      | nil => exact absurd rfl hne
      | cons kv kvs2 =>
        obtain ⟨k, v⟩ := kv
        have hsk : (k.data.all saneChar) = true ∧ saneVal v = true ∧
            sanePairs kvs2 = true := by
          unfold sanePairs at hs
          simpa [Bool.and_eq_true, and_assoc] using hs
        have hfv : needF v ≤ fuel := by
          unfold needO at hf
          omega
        have hndk : kvs2.any (fun e => e.1 == k) = false ∧ nodupKeys kvs2 = true := by
          unfold nodupKeys at hnd
          simpa [Bool.and_eq_true] using hnd
        have hacc0 : acc.any (fun e => e.1 == k) = false :=
          hany (k, v) (List.mem_cons_self _ _)
        cases kvs2 with
        | nil =>
          conv_lhs => rw [parseObjItems.eq_def]
          rw [show (joinSep [Char.ofNat 44, Char.ofNat 32] (dumpsMembers [(k, v)]) ++
              (cRbrace :: rest) : List Char) =
            cQuote :: (escString k.data ++ (cQuote :: (Char.ofNat 58 :: (Char.ofNat 32 ::
              (dumpsChars v ++ (cRbrace :: rest)))))) from by
            show (cQuote :: escString k.data ++ [cQuote, Char.ofNat 58, Char.ofNat 32]
              ++ dumpsChars v) ++ (cRbrace :: rest) = _
            simp [List.append_assoc]]
          dsimp only
          rw [if_pos rfl]
          rw [parseStrBody_escString k.data _ (List.all_eq_true.mp hsk.1)]
          dsimp only
          rw [skipWs_cons_of_not _ (by decide)]
          dsimp only
          rw [if_pos rfl]
          rw [parseVal_cons_ws _ _ (by decide)]
          rw [ih1 v _ hsk.2.1 hfv (by simp only [numStop]; decide)]
          dsimp only
          rw [show String.mk k.data = k from rfl]
          rw [pyDictInsert_append v hacc0]
          rw [skipWs_cons_of_not _ (by decide)]
          dsimp only
          rw [if_neg (by decide), if_pos rfl]
        | cons kv2 kvs3 =>
          have hfo : needO (kv2 :: kvs3) ≤ fuel := by
            unfold needO at hf
            omega
          have hany2 : ∀ e ∈ kv2 :: kvs3,
              ((acc ++ [(k, v)]).any (fun q => q.1 == e.1)) = false := by
            intro e hm
            rw [List.any_append]
            have h1 : acc.any (fun q => q.1 == e.1) = false :=
              hany e (List.mem_cons_of_mem _ hm)
            have h2 : (e.1 == k) = false := by
              have := List.any_eq_false.mp hndk.1 e hm
              simpa using this
            have h3 : (k == e.1) = false := by
              rw [beq_eq_false_iff_ne] at h2 ⊢
              exact fun he => h2 he.symm
            rw [h1]
            simp [h3]
          conv_lhs => rw [parseObjItems.eq_def]
          rw [show (joinSep [Char.ofNat 44, Char.ofNat 32]
              (dumpsMembers ((k, v) :: kv2 :: kvs3)) ++ (cRbrace :: rest) : List Char) =
            cQuote :: (escString k.data ++ (cQuote :: (Char.ofNat 58 :: (Char.ofNat 32 ::
              (dumpsChars v ++ (Char.ofNat 44 :: (Char.ofNat 32 ::
                (joinSep [Char.ofNat 44, Char.ofNat 32] (dumpsMembers (kv2 :: kvs3)) ++
                  (cRbrace :: rest))))))))) from by
            show ((cQuote :: escString k.data ++ [cQuote, Char.ofNat 58, Char.ofNat 32]
              ++ dumpsChars v) ++ [Char.ofNat 44, Char.ofNat 32] ++
              joinSep [Char.ofNat 44, Char.ofNat 32] (dumpsMembers (kv2 :: kvs3)))
              ++ (cRbrace :: rest) = _
            simp [List.append_assoc]]
          dsimp only
          rw [if_pos rfl]
          rw [parseStrBody_escString k.data _ (List.all_eq_true.mp hsk.1)]
          dsimp only
          rw [skipWs_cons_of_not _ (by decide)]
          dsimp only
          rw [if_pos rfl]
          rw [parseVal_cons_ws _ _ (by decide)]
          rw [ih1 v _ hsk.2.1 hfv (by simp only [numStop]; decide)]
          dsimp only
          rw [show String.mk k.data = k from rfl]
          rw [pyDictInsert_append v hacc0]
          rw [skipWs_cons_of_not _ (by decide)]
          dsimp only
          rw [if_pos rfl]
          rw [skipWs_cons_of_ws _ (by decide)]
          obtain ⟨z, hz⟩ := dumpsMembers_join_head kv2 kvs3
          rw [hz, List.cons_append, skipWs_cons_of_not _ (by decide)]
          rw [← List.cons_append, ← hz]
          rw [ih3 (kv2 :: kvs3) (acc ++ [(k, v)]) rest hsk.2.2 hfo (by simp)
            hndk.2 hany2]
          rw [List.append_assoc]
          rfl

theorem loads_dumps {v : PyVal} (hs : saneVal v = true) : loads (dumps v) = some v := by
  unfold loads dumps loadsChars
  have hP := (parse_dumps ((dumpsChars v).length + 1)).1 v [] hs
    (by have := needF_le v; omega) rfl
  rw [List.append_nil] at hP
  rw [show (String.mk (dumpsChars v)).data = dumpsChars v from rfl]
  rw [hP]
  rfl

theorem saneItems_iff (xs : List PyVal) :
    saneItems xs = true ↔ ∀ x ∈ xs, saneVal x = true := by
  induction xs with
  | nil => simp [saneItems]
  | cons hd tl ih =>
    simp only [saneItems, Bool.and_eq_true, ih]
    constructor
    · rintro ⟨h1, h2⟩ x hm
      rcases List.mem_cons.mp hm with h | h
      · rw [h]; exact h1
      · exact h2 x h
    · intro h
      exact ⟨h hd (List.mem_cons_self _ _), fun x hm => h x (List.mem_cons_of_mem _ hm)⟩

theorem sanePairs_iff (kvs : List (String × PyVal)) :
    sanePairs kvs = true ↔
      ∀ kv ∈ kvs, (kv.1.data.all saneChar) = true ∧ saneVal kv.2 = true := by
  induction kvs with
  | nil => simp [sanePairs]
  | cons hd tl ih =>
    obtain ⟨k, v⟩ := hd
    simp only [sanePairs, Bool.and_eq_true, ih, and_assoc]
    constructor
    · rintro ⟨h1, h2, h3⟩ kv hm
      rcases List.mem_cons.mp hm with h | h
      · rw [h]; exact ⟨h1, h2⟩
      · exact h3 kv h
    · intro h
      refine ⟨(h (k, v) (List.mem_cons_self _ _)).1,
        (h (k, v) (List.mem_cons_self _ _)).2,
        fun kv hm => h kv (List.mem_cons_of_mem _ hm)⟩

theorem sane_wf : ∀ (v : PyVal), saneVal v = true → wfVal v = true
  | .none, _ => rfl
  | .bool b, _ => rfl
  | .int n, _ => rfl
  | .str s, _ => rfl
  | .list xs, h => by
    show wfList xs = true
    rw [wfList_iff]
    intro x hm
    exact sane_wf x ((saneItems_iff xs).mp (by simpa [saneVal] using h) x hm)
  | .dict kvs, h => by
    have hp : nodupKeys kvs = true ∧ sanePairs kvs = true := by
      simpa [saneVal, Bool.and_eq_true] using h
    show (nodupKeys kvs && wfPairs kvs) = true
    rw [hp.1, Bool.true_and, wfPairs_iff]
    intro kv hm
    exact sane_wf kv.2 (((sanePairs_iff kvs).mp hp.2 kv hm).2)
  termination_by v => sizeOf v
  decreasing_by
    all_goals simp_wf
    · have := List.sizeOf_lt_of_mem hm; omega
    · have h1 := List.sizeOf_lt_of_mem hm
      obtain ⟨a, b⟩ := kv
      simp at h1 ⊢; omega

theorem saneVal_dict_perm {m1 m2 : List (String × PyVal)} (h : List.Perm m1 m2)
    (hs : saneVal (.dict m1) = true) : saneVal (.dict m2) = true := by
  unfold saneVal at hs ⊢
  simp only [Bool.and_eq_true] at hs ⊢
  obtain ⟨h1, h2⟩ := hs
  constructor
  · rw [nodupKeys_iff] at h1 ⊢
    exact h1.perm (h.map Prod.fst)
  · rw [sanePairs_iff] at h2 ⊢
    exact fun kv hm => h2 kv (h.mem_iff.mpr hm)

theorem pyEq_dict_perm {m1 m2 : List (String × PyVal)} (h : List.Perm m1 m2)
    (hnd : nodupKeys m1 = true) (hwf : wfPairs m1 = true) :
    pyEq (.dict m1) (.dict m2) = true := by
  rw [pyEq_eq_pyEqW]
  have hnd2 : nodupKeys m2 = true := by
    rw [nodupKeys_iff] at hnd ⊢
    exact hnd.perm (h.map Prod.fst)
  simp only [pyEqW, Bool.and_eq_true]
  refine ⟨by simp [h.length_eq], pyEqSubW_of_forall (fun kv hm => ?_)⟩
  refine ⟨kv.2, lookupPairs_self_of_nodup hnd2 kv (h.mem_iff.mp hm), ?_⟩
  exact pyEqW_refl kv.2 ((wfPairs_iff m1).mp hwf kv hm)

theorem pyStripChars_sandwich {c d : Char} (X : List Char)
    (hc : c.isWhitespace = false) (hd : d.isWhitespace = false) :
    pyStripChars (c :: (X ++ [d])) = c :: (X ++ [d]) := by
  unfold pyStripChars
  rw [List.dropWhile_cons, hc]
  simp only [Bool.false_eq_true, if_false]
  rw [← List.cons_append, List.reverse_append]
  rw [show ([d].reverse : List Char) = [d] from rfl, List.singleton_append]
  rw [List.dropWhile_cons, hd]
  simp only [Bool.false_eq_true, if_false]
  rw [List.reverse_cons, List.reverse_reverse, List.cons_append]

theorem pyStrip_dumps_dict (m : List (String × PyVal)) :
    pyStrip (dumps (.dict m)) = dumps (.dict m) := by
  unfold pyStrip dumps
  rw [show (String.mk (dumpsChars (PyVal.dict m))).data = dumpsChars (PyVal.dict m)
    from rfl]
  apply congrArg
  rw [show dumpsChars (PyVal.dict m) = cLbrace ::
    (joinSep [Char.ofNat 44, Char.ofNat 32] (dumpsMembers m) ++ [cRbrace]) from rfl]
  rw [pyStripChars_sandwich _ (by decide) (by decide)]

theorem dumps_dict_ne_empty (m : List (String × PyVal)) : dumps (.dict m) ≠ "" := by
  intro h
  have h2 := congrArg String.data h
  rw [show (dumps (.dict m)).data = cLbrace ::
    (joinSep [Char.ofNat 44, Char.ofNat 32] (dumpsMembers m) ++ [cRbrace]) from rfl]
    at h2
  cases h2

theorem normalize_dumps_dict {m : List (String × PyVal)}
    (hs : saneVal (.dict m) = true) :
    normalize_json_value (dumps (.dict m)) = .dict m := by
  unfold normalize_json_value
  dsimp only
  rw [pyStrip_dumps_dict]
  rw [if_neg (dumps_dict_ne_empty m)]
  rw [loads_dumps hs]

/-- C3: for a structured (JSON) column, the differ judges a stored
serialized JSON text equal to a candidate in-memory mapping holding the
same keys and values in any other order: the record comparison yields no
difference for such a record, because both sides are parsed back to
mappings and compared structurally, blind to key order and serializer
whitespace.  The mapping is quantified over the lossless submodel of the
JSON serializer (sane characters, integer scalars, distinct keys). -/
theorem structured_field_key_order_blind (c : String) (existing : Row)
    (m1 m2 : List (String × PyVal)) (jc xc : List String)
    (hc : jc.contains c = true)
    (he : columnExisting existing c = .str (dumps (.dict m1)))
    (hsane : saneVal (.dict m1) = true)
    (hperm : List.Perm m1 m2) :
    records_differ existing [(c, PyVal.dict m2)] jc xc = false := by
  have hw : nodupKeys m1 = true ∧ wfPairs m1 = true := by
    have h2 := sane_wf _ hsane
    unfold wfVal at h2
    simpa [Bool.and_eq_true] using h2
  refine records_differ_eq_false (fun kv hm hx2 => ?_)
  have hkv := List.mem_singleton.mp hm
  subst hkv
  unfold fieldDiffTest
  rw [if_pos hc, he]
  rw [show serialize_field (PyVal.dict m2) = dumps (.dict m2) from rfl]
  rw [show ensure_parsed_json (PyVal.str (dumps (PyVal.dict m1))) =
    normalize_json_value (dumps (PyVal.dict m1)) from rfl]
  rw [show ensure_parsed_json (PyVal.str (dumps (PyVal.dict m2))) =
    normalize_json_value (dumps (PyVal.dict m2)) from rfl]
  rw [normalize_dumps_dict hsane, normalize_dumps_dict (saneVal_dict_perm hperm hsane)]
  rw [pyEq_dict_perm hperm hw.1 hw.2]
  rfl

theorem structured_field_key_order_blind_witness :
    records_differ
      [("issue_data", PyVal.str (dumps (.dict [("a", PyVal.int 1),
        ("b", PyVal.int 2)])))]
      [("issue_data", PyVal.dict [("b", PyVal.int 2), ("a", PyVal.int 1)])]
      ["issue_data"] [] = false :=
  structured_field_key_order_blind "issue_data"
    [("issue_data", PyVal.str (dumps (.dict [("a", PyVal.int 1), ("b", PyVal.int 2)])))]
    [("a", PyVal.int 1), ("b", PyVal.int 2)]
    [("b", PyVal.int 2), ("a", PyVal.int 1)]
    ["issue_data"] [] (by decide) rfl (by decide) (List.Perm.swap _ _ _)
